import Mathlib

/-!
Iris classification harness (`testIrisClassification.cpp`).

A shallow embedding of the reporting helpers and of the loading, splitting and
grid-building loops of `main`, together with a model of the logistic-regression
core (`logisticRegression.h`, `polyReg.h`) that the harness calls.

Conventions of the embedding:

* a finite `double` is the rational number it denotes, and every `double`
  operation of the harness (`computeAccuracy`, the split index, the grid) is
  the exact operation followed by rounding to 53 significant bits, ties to
  even (`roundDouble`, `roundTo53`); each operation is rounded on its own.
  Exponent range, infinities and NaN are not represented: the theorems on the
  grid bound the inputs so that no operation overflows.
* an `int` counter is an integer kept in 32-bit two's-complement range by
  `wrapInt32` after every increment; theorems that need the counters not to
  wrap carry the bound `length < 2 ^ 31`.
* the core is modelled from its specification over an arbitrary linear ordered
  field `α`, instantiated with `ℚ` for evaluation.
* `v[i]` is `List.getD v i d`; an out-of-range read is undefined in the source
  and every theorem carries the length facts that keep reads in range.
* a `for (i = 0; i < n; i++)` loop is a left fold over `List.range n`, and
  `push_back` appends at the end.
-/

namespace IrisHarness

/-- The alias `Matrix = std::vector<std::vector<double>>`. -/
abbrev Matrix (α : Type) := List (List α)

/-! ## Machine arithmetic -/

/-- Bit length by repeated halving, at most `fuel` halvings. -/
def bitLengthAux : Nat → Nat → Nat
  | 0, _ => 0
  | fuel + 1, p => if p = 0 then 0 else bitLengthAux fuel (p / 2) + 1

/-- Number of binary digits of `p`; `p` halvings always suffice. -/
def bitLength (p : Nat) : Nat := bitLengthAux p p

/-- Rounding of a non-negative integer to 53 significant bits, ties to even: the
rounding applied by every `double` conversion and operation. -/
def roundTo53 (p : Nat) : Nat :=
  if bitLength p ≤ 53 then p
  else
    let s := bitLength p - 53
    let m := p / 2 ^ s
    let r := p % 2 ^ s
    if 2 ^ (s - 1) < r ∨ (r = 2 ^ (s - 1) ∧ m % 2 = 1) then (m + 1) * 2 ^ s else m * 2 ^ s

/-- The value of a 32-bit `int` after an operation whose exact result is `x`:
two's-complement wrap-around into `[-2 ^ 31, 2 ^ 31)`. Signed overflow is undefined
in C++; wrap-around is what the increment compiles to on the usual targets. -/
def wrapInt32 (x : Int) : Int :=
  (x + 2147483648) % 4294967296 - 2147483648

/-- The `double` quotient of two non-negative integers: `a / b` rounded to 53
significant bits, ties to even. The quotient is first cut to more than 54 bits
with a sticky last bit that records a non-zero remainder, then rounded. -/
def divRound (a b : Nat) : ℚ :=
  (roundTo53 (2 * (a * 2 ^ (bitLength b + 54) / b)
      + (if a * 2 ^ (bitLength b + 54) % b = 0 then 0 else 1)) : ℚ)
    / 2 ^ (bitLength b + 55)

/-- Rounding of an exact result to the nearest `double` (53 significant bits, ties
to even), symmetric in the sign: the rounding of every `double` operation. -/
def roundDouble (q : ℚ) : ℚ :=
  if q < 0 then -divRound q.num.natAbs q.den else divRound q.num.natAbs q.den

/-! ## Reporting helpers -/

/-- Body of the loop of `computeAccuracy`: `if (y_true[i] == y_pred[i]) correct++`
on the 32-bit `int correct`. -/
def computeAccuracy_body (y_true y_pred : List Int) (correct : Int) (i : Nat) : Int :=
  if y_true.getD i 0 = y_pred.getD i 0 then wrapInt32 (correct + 1) else correct

/-- The function `computeAccuracy`: `0.0` on an empty `y_true`, otherwise the
`double` expression `100.0 * correct / y_true.size()`: `correct` and the size are
converted to `double`, the product and then the quotient are rounded. -/
def computeAccuracy (y_true y_pred : List Int) : ℚ :=
  if y_true.isEmpty then 0
  else
    let correct : Int :=
      (List.range y_true.length).foldl (computeAccuracy_body y_true y_pred) 0
    roundDouble
      (roundDouble (100 * roundDouble (correct : ℚ)) / roundDouble (y_true.length : ℚ))

/-- The statement `cm[r][c]++` on a vector of vectors of 32-bit `int`. -/
def cmIncr (cm : List (List Int)) (r c : Nat) : List (List Int) :=
  cm.set r ((cm.getD r []).set c (wrapInt32 ((cm.getD r []).getD c 0 + 1)))

/-- Body of the loop of `confusionMatrix`. -/
def confusionMatrix_body (y_true y_pred : List Int) (cm : List (List Int)) (i : Nat) :
    List (List Int) :=
  if y_true.getD i 0 = 0 then
    if y_pred.getD i 0 = 0 then cmIncr cm 0 0 else cmIncr cm 0 1
  else
    if y_pred.getD i 0 = 1 then cmIncr cm 1 1 else cmIncr cm 1 0

/-- The function `confusionMatrix`: starts from `cm(2, vector<int>(2, 0))`. -/
def confusionMatrix (y_true y_pred : List Int) : List (List Int) :=
  (List.range y_true.length).foldl (confusionMatrix_body y_true y_pred)
    (List.replicate 2 (List.replicate 2 0))

/-- Number of indices `i < n` at which the true label is `a` and the predicted
label is `b`. -/
def pairCount (y_true y_pred : List Int) (a b : Int) (n : Nat) : Nat :=
  (List.range n).countP (fun i => decide (y_true.getD i 0 = a ∧ y_pred.getD i 0 = b))

/-- Number of indices `i < n` at which the two vectors hold the same value. -/
def matchCount (y_true y_pred : List Int) (n : Nat) : Nat :=
  (List.range n).countP (fun i => decide (y_true.getD i 0 = y_pred.getD i 0))

/-- Number of indices `i < n` at which the true label is `a`. -/
def labelCount (y_true : List Int) (a : Int) (n : Nat) : Nat :=
  (List.range n).countP (fun i => decide (y_true.getD i 0 = a))

/-- Entry `cm[r][c]` of a matrix of counters. -/
def cmAt (cm : List (List Int)) (r c : Nat) : Int :=
  (cm.getD r []).getD c 0

/-! ## Shuffle and split -/

/-- Body of the loop that fills `X_shuffled` and `y_shuffled`:
`X_shuffled.push_back(X[indices[i]]); y_shuffled.push_back(y[indices[i]])`. -/
def shuffle_body {α : Type} [Zero α] (X : Matrix α) (y : List Int) (indices : List Nat)
    (s : Matrix α × List Int) (i : Nat) : Matrix α × List Int :=
  (s.1 ++ [X.getD (indices.getD i 0) []], s.2 ++ [y.getD (indices.getD i 0) 0])

/-- The loop `for (size_t i = 0; i < indices.size(); i++)` over the shuffled
`indices`; the order of `indices` is whatever `std::shuffle` produced. -/
def shuffleLoop {α : Type} [Zero α] (X : Matrix α) (y : List Int) (indices : List Nat) :
    Matrix α × List Int :=
  (List.range indices.length).foldl (shuffle_body X y indices) ([], [])

/-- The vector `X_shuffled`. -/
def X_shuffled {α : Type} [Zero α] (X : Matrix α) (y : List Int) (indices : List Nat) :
    Matrix α :=
  (shuffleLoop X y indices).1

/-- The vector `y_shuffled`. -/
def y_shuffled {α : Type} [Zero α] (X : Matrix α) (y : List Int) (indices : List Nat) :
    List Int :=
  (shuffleLoop X y indices).2

/-- The constant `train_ratio = 0.7` as a `double`: the significand of the nearest
double to `7/10`, which is `3152519739159347 / 2 ^ 52`. -/
def train_ratio : Nat := 3152519739159347

/-- The split index `static_cast<size_t>(X_shuffled.size() * train_ratio)`: the
size is converted to `double`, multiplied by `0.7` in `double` arithmetic (the
exact product `roundTo53 n * train_ratio / 2 ^ 52`, rounded), and the product is
truncated. -/
def train_size (n : Nat) : Nat :=
  roundTo53 (roundTo53 n * train_ratio) / 2 ^ 52

/-- The training rows `Matrix X_train(X_shuffled.begin(), X_shuffled.begin() + train_size)`. -/
def X_train {α : Type} [Zero α] (X : Matrix α) (y : List Int) (indices : List Nat) :
    Matrix α :=
  (X_shuffled X y indices).take (train_size (X_shuffled X y indices).length)

/-- The training labels `y_train(y_shuffled.begin(), y_shuffled.begin() + train_size)`. -/
def y_train {α : Type} [Zero α] (X : Matrix α) (y : List Int) (indices : List Nat) :
    List Int :=
  (y_shuffled X y indices).take (train_size (X_shuffled X y indices).length)

/-- The test rows `Matrix X_test(X_shuffled.begin() + train_size, X_shuffled.end())`. -/
def X_test {α : Type} [Zero α] (X : Matrix α) (y : List Int) (indices : List Nat) :
    Matrix α :=
  (X_shuffled X y indices).drop (train_size (X_shuffled X y indices).length)

/-- The test labels `y_test(y_shuffled.begin() + train_size, y_shuffled.end())`. -/
def y_test {α : Type} [Zero α] (X : Matrix α) (y : List Int) (indices : List Nat) :
    List Int :=
  (y_shuffled X y indices).drop (train_size (X_shuffled X y indices).length)

/-! ## CSV loading loop -/

/-- The tokeniser `while (std::getline(iss, token, ',')) tokens.push_back(token)`,
one character at a time; `cur` holds the characters of the current token in
reverse. A comma ends the token; at the end of the line a `getline` that has
extracted no character fails, so no token is pushed after a final comma. -/
def getlineTokens : List Char → List Char → List (List Char)
  | cur, [] => if cur.isEmpty then [] else [cur.reverse]
  | cur, c :: cs =>
    if c = ',' then cur.reverse :: getlineTokens [] cs else getlineTokens (c :: cur) cs

/-- The vector `tokens` built from `line`. -/
def tokenize (line : String) : List String :=
  (getlineTokens [] line.data).map String.mk

/-- One pass of the `while (std::getline(file, line))` loop on the pair `(X, y)`.
The parser `stod` answers `none` where `std::stod` throws. -/
def loadStep {α : Type} (stod : String → Option α) (s : Matrix α × List Int)
    (line : String) : Matrix α × List Int :=
  if line.isEmpty then s
  else
    let tokens := tokenize line
    if tokens.length < 6 then s
    else
      let species := tokens.getD 5 ""
      if species = "Iris-versicolor" ∨ species = "Iris-virginica" then
        match stod (tokens.getD 3 "") with
        | none => s
        | some petalLength =>
          match stod (tokens.getD 4 "") with
          | none => s
          | some petalWidth =>
            let X := s.1 ++ [[petalLength, petalWidth]]
            if species = "Iris-versicolor" then (X, s.2 ++ [0]) else (X, s.2 ++ [1])
      else s

/-- The loading loop over the lines that follow the header, from empty `X`, `y`. -/
def loadLoop {α : Type} (stod : String → Option α) (lines : List String) :
    Matrix α × List Int :=
  lines.foldl (loadStep stod) ([], [])

/-- Comma-separated fields of a line in the ordinary sense: one more field than
commas, a final comma being followed by an empty field. -/
def splitFields : List Char → List Char → List (List Char)
  | cur, [] => [cur.reverse]
  | cur, c :: cs =>
    if c = ',' then cur.reverse :: splitFields [] cs else splitFields (c :: cur) cs

/-- The fields of `line` as strings. -/
def fields (line : String) : List String :=
  (splitFields [] line.data).map String.mk

/-- The sample a line contributes, in the words of the data model: nothing for an
empty line, a line of fewer than 6 fields, a species other than the two kept, or
petal fields that do not parse; otherwise the row `[petal length, petal width]`
with label `0` for `Iris-versicolor` and `1` for `Iris-virginica`. -/
def lineSample {α : Type} (stod : String → Option α) (line : String) :
    Option (List α × Int) :=
  if line.isEmpty then none
  else if (fields line).length < 6 then none
  else if (fields line).getD 5 "" = "Iris-versicolor" then
    match stod ((fields line).getD 3 ""), stod ((fields line).getD 4 "") with
    | some pl, some pw => some ([pl, pw], 0)
    | _, _ => none
  else if (fields line).getD 5 "" = "Iris-virginica" then
    match stod ((fields line).getD 3 ""), stod ((fields line).getD 4 "") with
    | some pl, some pw => some ([pl, pw], 1)
    | _, _ => none
  else none

/-! ## Decision-boundary grid -/

/-- The four running bounds `minPL, maxPL, minPW, maxPW`. -/
structure Bounds (α : Type) where
  /-- Lower bound of the petal length. -/
  minPL : α
  /-- Upper bound of the petal length. -/
  maxPL : α
  /-- Lower bound of the petal width. -/
  minPW : α
  /-- Upper bound of the petal width. -/
  maxPW : α

/-- The four `if` statements of the bounds loop, applied to one row. -/
def updateBounds {α : Type} [LinearOrderedField α] (b : Bounds α) (row : List α) :
    Bounds α :=
  let minPL := if row.getD 0 0 < b.minPL then row.getD 0 0 else b.minPL
  let maxPL := if row.getD 0 0 > b.maxPL then row.getD 0 0 else b.maxPL
  let minPW := if row.getD 1 0 < b.minPW then row.getD 1 0 else b.minPW
  let maxPW := if row.getD 1 0 > b.maxPW then row.getD 1 0 else b.maxPW
  { minPL := minPL, maxPL := maxPL, minPW := minPW, maxPW := maxPW }

/-- Body of the bounds loop at index `i`, reading `X_train[i][0]` and `X_train[i][1]`. -/
def bounds_body {α : Type} [LinearOrderedField α] (X_train : Matrix α) (b : Bounds α)
    (i : Nat) : Bounds α :=
  updateBounds b (X_train.getD i [])

/-- The bounds loop, started from `minPL = 1e9, maxPL = -1e9, minPW = 1e9, maxPW = -1e9`. -/
def scanBounds {α : Type} [LinearOrderedField α] (X_train : Matrix α) : Bounds α :=
  (List.range X_train.length).foldl (bounds_body X_train)
    { minPL := 1000000000, maxPL := -1000000000, minPW := 1000000000, maxPW := -1000000000 }

/-- The bounds after `minPL -= marginPL; maxPL += marginPL; minPW -= marginPW;
maxPW += marginPW` with both margins `0.5`, each a rounded `double` operation. -/
def gridBounds (X_train : Matrix ℚ) : Bounds ℚ :=
  { minPL := roundDouble ((scanBounds X_train).minPL - 1 / 2)
    maxPL := roundDouble ((scanBounds X_train).maxPL + 1 / 2)
    minPW := roundDouble ((scanBounds X_train).minPW - 1 / 2)
    maxPW := roundDouble ((scanBounds X_train).maxPW + 1 / 2) }

/-- The constant `gridSteps = 100`. -/
def gridSteps : Nat := 100

/-- The step `stepPL = (maxPL - minPL) / (gridSteps - 1)`: the difference is
rounded, then the quotient by `99.0`. -/
def stepPL (b : Bounds ℚ) : ℚ :=
  roundDouble (roundDouble (b.maxPL - b.minPL) / ((gridSteps - 1 : Nat) : ℚ))

/-- The step `stepPW = (maxPW - minPW) / (gridSteps - 1)`: the difference is
rounded, then the quotient by `99.0`. -/
def stepPW (b : Bounds ℚ) : ℚ :=
  roundDouble (roundDouble (b.maxPW - b.minPW) / ((gridSteps - 1 : Nat) : ℚ))

/-- The point `{pl, pw}` pushed at loop indices `i`, `j`, with
`pl = minPL + i * stepPL` and `pw = minPW + j * stepPW`: each product is rounded,
then each sum. -/
def gridPoint (b : Bounds ℚ) (i j : Nat) : List ℚ :=
  [roundDouble (b.minPL + roundDouble ((i : ℚ) * stepPL b)),
   roundDouble (b.minPW + roundDouble ((j : ℚ) * stepPW b))]

/-- The nested loops that fill `gridPoints`. -/
def gridPoints (b : Bounds ℚ) : Matrix ℚ :=
  (List.range gridSteps).foldl
    (fun g i => (List.range gridSteps).foldl (fun g j => g ++ [gridPoint b i j]) g) []

/-- Column `c` of a matrix: the values `X[i][c]`. -/
def column {α : Type} [Zero α] (X : Matrix α) (c : Nat) : List α :=
  X.map (fun row => row.getD c 0)

/-- The value `m` is the minimum of the list `l`. -/
def IsMinOf {α : Type} [LE α] (l : List α) (m : α) : Prop :=
  m ∈ l ∧ ∀ v ∈ l, m ≤ v

/-- The value `m` is the maximum of the list `l`. -/
def IsMaxOf {α : Type} [LE α] (l : List α) (m : α) : Prop :=
  m ∈ l ∧ ∀ v ∈ l, v ≤ m

/-! ## The core called by the harness

The headers `polyReg.h` and `logisticRegression.h` are modelled from the
specification of the feature expander and of the logistic-regression model. -/

/-- Modelled from the spec: the failure conditions of the core (`polyReg.h` and
`logisticRegression.h` are not available). -/
inductive CoreError where
  | InvalidInput
  | InvalidConfiguration
  | NotFitted
  deriving DecidableEq, Repr

/-- Modelled from the spec: the exponent vectors of the monomials of total degree
exactly `t` over `k` columns (the enumeration of `polyReg.h` is not available), in
an order that depends on `(k, t)` only: decreasing exponent of the first column,
then recursively on the remaining columns. -/
def monomialsOfDegree : Nat → Nat → List (List Nat)
  | 0, t => if t = 0 then [[]] else []
  | k + 1, t =>
    (List.range (t + 1)).reverse.flatMap
      (fun e => (monomialsOfDegree k (t - e)).map (fun es => e :: es))

/-- Modelled from the spec: the value of a monomial on a row, the product of the
row entries raised to the exponents. -/
def evalMonomial {α : Type} [LinearOrderedField α] (row : List α) (es : List Nat) : α :=
  (List.zipWith (fun x e => x ^ e) row es).prod

/-- Modelled from the spec: one row of the design matrix, one column per monomial
of total degree `0..degree` (degree 0 is the bias), by increasing total degree. -/
def expandRow {α : Type} [LinearOrderedField α] (degree : Nat) (row : List α) : List α :=
  (List.range (degree + 1)).flatMap
    (fun t => (monomialsOfDegree row.length t).map (evalMonomial row))

/-- Modelled from the spec: `genPolyFeatures(X, degree)` of `polyReg.h` (spec:
`expand(X, degree)`), failing with `InvalidInput` on an empty or ragged matrix and
otherwise expanding every row. -/
def genPolyFeatures {α : Type} [LinearOrderedField α] (X : Matrix α) (degree : Nat) :
    Except CoreError (Matrix α) :=
  match X with
  | [] => Except.error CoreError.InvalidInput
  | first :: rest =>
    if rest.all (fun row => row.length == first.length) then
      Except.ok ((first :: rest).map (expandRow degree))
    else Except.error CoreError.InvalidInput

/-- Modelled from the spec: the training-state tag of the model. -/
inductive TrainState where
  | Uninitialized
  | Fitting
  | Converged
  | MaxIterReached
  | Ready
  deriving DecidableEq, Repr

/-- Modelled from the spec: the class `LogisticRegression` of
`logisticRegression.h`: hyperparameters fixed at construction, the weight vector,
the state tag, and the terminal state of the last training run. -/
structure LogisticRegression (α : Type) where
  /-- Learning rate. -/
  learningRate : α
  /-- Maximum number of iterations. -/
  maxIterations : Int
  /-- Convergence tolerance. -/
  tolerance : α
  /-- Weight vector. -/
  weights : List α
  /-- State tag. -/
  state : TrainState
  /-- Terminal state reached by `fit` before the model became `Ready`. -/
  terminal : TrainState

/-- Modelled from the spec: construction, which validates learning rate `> 0`,
maximum iterations `> 0` and tolerance `≥ 0`. -/
def LogisticRegression.construct {α : Type} [LinearOrderedField α]
    (learningRate : α) (maxIterations : Int) (tolerance : α) :
    Except CoreError (LogisticRegression α) :=
  if 0 < learningRate ∧ 0 < maxIterations ∧ 0 ≤ tolerance then
    Except.ok
      { learningRate := learningRate, maxIterations := maxIterations,
        tolerance := tolerance, weights := [],
        state := TrainState.Uninitialized, terminal := TrainState.Uninitialized }
  else Except.error CoreError.InvalidConfiguration

/-- Modelled from the spec: the linear score `Φ_i · w`. -/
def dot {α : Type} [LinearOrderedField α] (row w : List α) : α :=
  (List.zipWith (fun x wj => x * wj) row w).sum

/-- Modelled from the spec: the average logistic-loss gradient
`g = (1/n) · Φᵗ(p − y)` with `p_i = sigmoid(Φ_i · w)`, one entry per weight. -/
def gradient {α : Type} [LinearOrderedField α] (sigmoid : α → α) (Phi : Matrix α)
    (y : List Int) (w : List α) : List α :=
  let p := Phi.map (fun row => sigmoid (dot row w))
  (List.range w.length).map (fun j =>
    1 / (Phi.length : α)
      * ((List.range Phi.length).map
          (fun i => (Phi.getD i []).getD j 0 * (p.getD i 0 - ((y.getD i 0 : Int) : α)))).sum)

/-- Modelled from the spec: the training loop, at most `budget` iterations of
steps 1 to 5; `stopMetric` is the stopping metric computed from the weights before
and after the update. -/
def gradientDescent {α : Type} [LinearOrderedField α] (sigmoid : α → α)
    (stopMetric : List α → List α → α) (learningRate tolerance : α) (Phi : Matrix α)
    (y : List Int) : Nat → List α → List α × TrainState
  | 0, w => (w, TrainState.MaxIterReached)
  | budget + 1, w =>
    let g := gradient sigmoid Phi y w
    let w' := List.zipWith (fun wj gj => wj - learningRate * gj) w g
    if stopMetric w w' < tolerance then (w', TrainState.Converged)
    else gradientDescent sigmoid stopMetric learningRate tolerance Phi y budget w'

/-- Modelled from the spec: `fit(Φ, y)`, which requires a non-empty, rectangular
`Φ` with as many rows as labels, starts from all-zero weights sized to the column
count, runs the training loop, and leaves the model `Ready`. -/
def LogisticRegression.fit {α : Type} [LinearOrderedField α] (sigmoid : α → α)
    (stopMetric : List α → List α → α) (m : LogisticRegression α) (Phi : Matrix α)
    (y : List Int) : Except CoreError (LogisticRegression α) :=
  match Phi with
  | [] => Except.error CoreError.InvalidInput
  | first :: rest =>
    if (first :: rest).length = y.length
        ∧ rest.all (fun row => row.length == first.length) then
      let run := gradientDescent sigmoid stopMetric m.learningRate m.tolerance
        (first :: rest) y m.maxIterations.toNat (List.replicate first.length 0)
      Except.ok { m with weights := run.1, state := TrainState.Ready, terminal := run.2 }
    else Except.error CoreError.InvalidInput

/-- Modelled from the spec: `predictProb(Φ)`, the probability `sigmoid(Φ_i · w)` of
every row; `NotFitted` unless `Ready`, `InvalidInput` on a column-count mismatch. -/
def LogisticRegression.predictProb {α : Type} [LinearOrderedField α] (sigmoid : α → α)
    (m : LogisticRegression α) (Phi : Matrix α) : Except CoreError (List α) :=
  if m.state ≠ TrainState.Ready then Except.error CoreError.NotFitted
  else if Phi.all (fun row => row.length == m.weights.length) then
    Except.ok (Phi.map (fun row => sigmoid (dot row m.weights)))
  else Except.error CoreError.InvalidInput

/-- Modelled from the spec: `predict(Φ)`, `1` if `sigmoid(Φ_i · w) ≥ 0.5` else `0`
for every row; `NotFitted` unless `Ready`, `InvalidInput` on a column-count
mismatch. -/
def LogisticRegression.predict {α : Type} [LinearOrderedField α] (sigmoid : α → α)
    (m : LogisticRegression α) (Phi : Matrix α) : Except CoreError (List Int) :=
  if m.state ≠ TrainState.Ready then Except.error CoreError.NotFitted
  else if Phi.all (fun row => row.length == m.weights.length) then
    Except.ok (Phi.map (fun row => if sigmoid (dot row m.weights) ≥ 1 / 2 then 1 else 0))
  else Except.error CoreError.InvalidInput

/-- A rational S-shaped function with value `1/2` at `0`, standing for the logistic
function when the model is evaluated on rationals. -/
def rationalSigmoid (z : ℚ) : ℚ :=
  1 / 2 + z / (2 * (1 + |z|))

/-! ## Theorems -/

/-! ### Machine arithmetic -/

/-- Every counted halving witnesses a power of two below the argument. -/
theorem pow_le_of_lt_bitLengthAux (fuel : Nat) :
    ∀ (p k : Nat), k < bitLengthAux fuel p → 2 ^ k ≤ p := by
  induction fuel with
  | zero => intro p k h; simp [bitLengthAux] at h
  | succ f ih =>
    intro p k h
    unfold bitLengthAux at h
    split at h
    · omega
    · rename_i hp
      cases k with
      | zero => simp; omega
      | succ k =>
        have := ih (p / 2) k (by omega)
        rw [pow_succ]
        omega

/-- With enough fuel the halvings reach zero: the argument is below `2 ^ bitLength`. -/
theorem lt_pow_bitLengthAux (fuel : Nat) :
    ∀ (p : Nat), p ≤ fuel → p < 2 ^ bitLengthAux fuel p := by
  induction fuel with
  | zero => intro p h; simp [bitLengthAux]; omega
  | succ f ih =>
    intro p h
    unfold bitLengthAux
    split
    · simp; omega
    · have := ih (p / 2) (by omega)
      rw [pow_succ]
      omega

/-- The function `bitLength` is the bit length: `2 ^ k ≤ p` for `k` below it, and
`p < 2 ^ bitLength p`. -/
theorem bitLength_spec (p : Nat) :
    (∀ k, k < bitLength p → 2 ^ k ≤ p) ∧ p < 2 ^ bitLength p :=
  ⟨fun k h => pow_le_of_lt_bitLengthAux p p k h, lt_pow_bitLengthAux p p (Nat.le_refl p)⟩

/-- Rounding to 53 bits moves a value by at most one part in `2 ^ 52`. -/
theorem roundTo53_bounds (p : Nat) :
    2 ^ 52 * roundTo53 p ≤ (2 ^ 52 + 1) * p ∧ (2 ^ 52 - 1) * p ≤ 2 ^ 52 * roundTo53 p := by
  unfold roundTo53
  by_cases hb : bitLength p ≤ 53
  · simp only [hb, if_true]
    norm_num
    omega
  · simp only [hb, if_false]
    have hs : 52 + (bitLength p - 53) < bitLength p := by omega
    have hpow : 2 ^ (52 + (bitLength p - 53)) ≤ p := (bitLength_spec p).1 _ hs
    generalize bitLength p - 53 = s at hpow ⊢
    have htpos : 0 < 2 ^ s := Nat.pow_pos (by norm_num)
    rw [pow_add] at hpow
    have hm : 2 ^ 52 ≤ p / 2 ^ s := (Nat.le_div_iff_mul_le htpos).mpr hpow
    have hdm : p / 2 ^ s * 2 ^ s + p % 2 ^ s = p := by
      rw [Nat.mul_comm]; exact Nat.div_add_mod p (2 ^ s)
    have hr : p % 2 ^ s < 2 ^ s := Nat.mod_lt _ htpos
    have hmt : 2 ^ 52 * 2 ^ s ≤ p / 2 ^ s * 2 ^ s := Nat.mul_le_mul_right _ hm
    have e1 : (p / 2 ^ s + 1) * 2 ^ s = p / 2 ^ s * 2 ^ s + 2 ^ s := by ring
    rw [e1]
    generalize p / 2 ^ s * 2 ^ s = x at *
    generalize p % 2 ^ s = r at *
    generalize 2 ^ s = t at *
    norm_num at hmt ⊢
    split <;> omega

theorem wrapInt32_succ (x : Int) : wrapInt32 (wrapInt32 x + 1) = wrapInt32 (x + 1) := by
  unfold wrapInt32
  omega

/-- Zero is in range. -/
theorem wrapInt32_zero : wrapInt32 0 = 0 := by
  unfold wrapInt32
  norm_num

theorem wrapInt32_of_range (x : Int) (h1 : -2147483648 ≤ x) (h2 : x < 2147483648) :
    wrapInt32 x = x := by
  unfold wrapInt32
  omega

/-- A value of at most 53 significant bits is not changed by the rounding. -/
theorem roundTo53_exact (c j : Nat) (hc : c < 2 ^ 53) : roundTo53 (c * 2 ^ j) = c * 2 ^ j := by
  unfold roundTo53
  by_cases hb : bitLength (c * 2 ^ j) ≤ 53
  · simp only [hb, if_true]
  · simp only [hb, if_false]
    have hsj : bitLength (c * 2 ^ j) - 53 ≤ j := by
      by_contra hcon
      have hlt : 53 + j < bitLength (c * 2 ^ j) := by omega
      have h := (bitLength_spec (c * 2 ^ j)).1 _ hlt
      rw [pow_add] at h
      have : 2 ^ 53 ≤ c := Nat.le_of_mul_le_mul_right h (Nat.pow_pos (by norm_num))
      omega
    have hs1 : 1 ≤ bitLength (c * 2 ^ j) - 53 := by omega
    generalize bitLength (c * 2 ^ j) - 53 = s at hsj hs1 ⊢
    have hdvd : 2 ^ s ∣ c * 2 ^ j := Dvd.dvd.mul_left (pow_dvd_pow 2 hsj) c
    have hmod : c * 2 ^ j % 2 ^ s = 0 := Nat.mod_eq_zero_of_dvd hdvd
    have hhalf : 0 < 2 ^ (s - 1) := Nat.pow_pos (by norm_num)
    rw [hmod]
    have hcond : ¬ (2 ^ (s - 1) < 0 ∨ (0 = 2 ^ (s - 1) ∧ c * 2 ^ j / 2 ^ s % 2 = 1)) := by
      rintro (h | ⟨h, _⟩) <;> omega
    simp only [hcond, if_false]
    exact Nat.div_mul_cancel hdvd

theorem divRound_zero (b : Nat) : divRound 0 b = 0 := by
  unfold divRound
  have h : roundTo53 0 = 0 := by decide
  simp [h]

theorem divRound_nonneg (a b : Nat) : 0 ≤ divRound a b := by
  unfold divRound
  positivity


/-- Integer form of the accuracy of `divRound`. -/
theorem divRound_nat_bounds (a b : Nat) (ha : 0 < a) (hb : 0 < b) :
    2 ^ 51 * (roundTo53 (2 * (a * 2 ^ (bitLength b + 54) / b)
        + (if a * 2 ^ (bitLength b + 54) % b = 0 then 0 else 1)) * b)
      ≤ (2 ^ 51 + 1) * (2 * (a * 2 ^ (bitLength b + 54)))
    ∧ (2 ^ 51 - 1) * (2 * (a * 2 ^ (bitLength b + 54)))
      ≤ 2 ^ 51 * (roundTo53 (2 * (a * 2 ^ (bitLength b + 54) / b)
        + (if a * 2 ^ (bitLength b + 54) % b = 0 then 0 else 1)) * b) := by
  have hbl : b < 2 ^ bitLength b := (bitLength_spec b).2
  have h3 : 2 ^ 54 * b ≤ a * 2 ^ (bitLength b + 54) := by
    calc 2 ^ 54 * b ≤ 2 ^ 54 * 2 ^ bitLength b := Nat.mul_le_mul_left _ (Nat.le_of_lt hbl)
      _ = 1 * 2 ^ (bitLength b + 54) := by rw [pow_add]; ring
      _ ≤ a * 2 ^ (bitLength b + 54) := Nat.mul_le_mul_right _ ha
  generalize a * 2 ^ (bitLength b + 54) = P at h3 ⊢
  have hdiv : P / b * b ≤ P := Nat.div_mul_le_self P b
  have hlt : P < (P / b + 1) * b := by
    have := Nat.lt_succ_iff.mpr (Nat.le_refl (P / b))
    exact (Nat.div_lt_iff_lt_mul hb).mp this
  have hs : (if P % b = 0 then 0 else 1) ≤ 1 := by split <;> omega
  generalize (if P % b = 0 then 0 else 1) = s at hs ⊢
  have hY : (2 * (P / b) + s) * b = 2 * (P / b * b) + s * b := by ring
  have hsb : s * b ≤ b := by
    calc s * b ≤ 1 * b := Nat.mul_le_mul_right b hs
      _ = b := Nat.one_mul b
  have e1 : (P / b + 1) * b = P / b * b + b := by ring
  rw [e1] at hlt
  obtain ⟨r1, r2⟩ := roundTo53_bounds (2 * (P / b) + s)
  have r1b := Nat.mul_le_mul_right b r1
  have r2b := Nat.mul_le_mul_right b r2
  have e2 : 2 ^ 52 * roundTo53 (2 * (P / b) + s) * b
      = 2 ^ 52 * (roundTo53 (2 * (P / b) + s) * b) := by ring
  have e3 : (2 ^ 52 + 1) * (2 * (P / b) + s) * b
      = (2 ^ 52 + 1) * ((2 * (P / b) + s) * b) := by ring
  have e4 : (2 ^ 52 - 1) * (2 * (P / b) + s) * b
      = (2 ^ 52 - 1) * ((2 * (P / b) + s) * b) := by ring
  rw [e2, e3] at r1b
  rw [e2, e4] at r2b
  rw [hY] at r1b r2b
  generalize roundTo53 (2 * (P / b) + s) * b = X at r1b r2b ⊢
  generalize P / b * b = D at *
  generalize s * b = S at *
  norm_num at r1b r2b h3 ⊢
  constructor <;> omega

/-- Relative accuracy of `divRound`: within one part in `2 ^ 51` of `a / b`. -/
theorem divRound_bounds (a b : Nat) (hb : 0 < b) :
    (1 - 1 / 2 ^ 51) * ((a : ℚ) / b) ≤ divRound a b
    ∧ divRound a b ≤ (1 + 1 / 2 ^ 51) * ((a : ℚ) / b) := by
  rcases Nat.eq_zero_or_pos a with h0 | ha
  · subst h0
    rw [divRound_zero]
    simp
  · obtain ⟨hU, hL⟩ := divRound_nat_bounds a b ha hb
    unfold divRound
    generalize roundTo53 (2 * (a * 2 ^ (bitLength b + 54) / b)
        + (if a * 2 ^ (bitLength b + 54) % b = 0 then 0 else 1)) = R at hU hL ⊢
    have hbq : (0 : ℚ) < b := Nat.cast_pos.mpr hb
    have hU' : (2 ^ 51 : ℚ) * (R * b) ≤ (2 ^ 51 + 1) * (2 * (a * 2 ^ (bitLength b + 54))) := by
      exact_mod_cast hU
    have hL' : ((2 ^ 51 - 1 : ℕ) : ℚ) * (2 * (a * 2 ^ (bitLength b + 54))) ≤ 2 ^ 51 * (R * b) := by
      exact_mod_cast hL
    have hc : ((2 ^ 51 - 1 : ℕ) : ℚ) = 2 ^ 51 - 1 := by norm_num
    rw [hc] at hL'
    have hp : (2 : ℚ) ^ (bitLength b + 55) = 2 * 2 ^ (bitLength b + 54) := by
      rw [pow_succ]; ring
    rw [hp]
    have hK : (0 : ℚ) < 2 ^ (bitLength b + 54) := by positivity
    generalize (2 : ℚ) ^ (bitLength b + 54) = T at *
    constructor
    · rw [le_div_iff₀ (by positivity)]
      have : (1 - 1 / 2 ^ 51) * ((a : ℚ) / b) * (2 * T)
          = ((2 ^ 51 - 1) * (2 * (a * T))) / (2 ^ 51 * b) := by
        field_simp
        ring
      rw [this, div_le_iff₀ (by positivity)]
      linarith
    · rw [div_le_iff₀ (by positivity)]
      have : (1 + 1 / 2 ^ 51) * ((a : ℚ) / b) * (2 * T)
          = ((2 ^ 51 + 1) * (2 * (a * T))) / (2 ^ 51 * b) := by
        field_simp
        ring
      rw [this, le_div_iff₀ (by positivity)]
      linarith


/-- An integer below `2 ^ 53` is its own quotient by `1`. -/
theorem divRound_one (k : Nat) (hk : k < 2 ^ 53) : divRound k 1 = k := by
  unfold divRound
  have hb : bitLength 1 = 1 := by decide
  rw [hb]
  have e : 2 * (k * 2 ^ (1 + 54) / 1) + (if k * 2 ^ (1 + 54) % 1 = 0 then 0 else 1)
      = k * 2 ^ 56 := by
    rw [Nat.div_one, Nat.mod_one]
    simp only [if_true]
    ring
  rw [e, roundTo53_exact k 56 hk]
  have h56 : (1 : Nat) + 55 = 56 := rfl
  rw [h56]
  push_cast
  exact mul_div_cancel_right₀ _ (by positivity)

theorem roundDouble_zero : roundDouble 0 = 0 := by
  unfold roundDouble
  simp [divRound_zero]

theorem roundDouble_nonneg (q : ℚ) (hq : 0 ≤ q) : 0 ≤ roundDouble q := by
  unfold roundDouble
  rw [if_neg (not_lt.mpr hq)]
  exact divRound_nonneg _ _

theorem roundDouble_neg (q : ℚ) : roundDouble (-q) = -roundDouble q := by
  unfold roundDouble
  rcases lt_trichotomy q 0 with h | h | h
  · have h' : ¬ (-q < 0) := by linarith
    simp only [h, h', if_true, if_false, Rat.num_neg_eq_neg_num, Rat.neg_den, Int.natAbs_neg,
      neg_neg]
  · subst h
    simp [divRound_zero]
  · have h' : -q < 0 := by linarith
    have h'' : ¬ (q < 0) := by linarith
    simp only [h', h'', if_true, if_false, Rat.num_neg_eq_neg_num, Rat.neg_den, Int.natAbs_neg]

/-- On a non-negative rational the rounding is within one part in `2 ^ 51`. -/
theorem roundDouble_bounds (q : ℚ) (hq : 0 ≤ q) :
    (1 - 1 / 2 ^ 51) * q ≤ roundDouble q ∧ roundDouble q ≤ (1 + 1 / 2 ^ 51) * q := by
  unfold roundDouble
  rw [if_neg (not_lt.mpr hq)]
  have hnum : 0 ≤ q.num := Rat.num_nonneg.mpr hq
  have hq' : ((q.num.natAbs : ℕ) : ℚ) / (q.den : ℚ) = q := by
    have h1 : ((q.num.natAbs : ℕ) : ℚ) = ((q.num : ℤ) : ℚ) := by
      rw [← Int.cast_natCast, Int.natAbs_of_nonneg hnum]
    rw [h1]
    exact Rat.num_div_den q
  have h := divRound_bounds q.num.natAbs q.den q.den_pos
  rw [hq'] at h
  exact h

theorem roundDouble_pos (q : ℚ) (hq : 0 < q) : 0 < roundDouble q := by
  have h := (roundDouble_bounds q (le_of_lt hq)).1
  have : 0 < (1 - 1 / 2 ^ 51) * q := by
    apply mul_pos _ hq
    norm_num
  linarith

theorem roundDouble_natCast (k : Nat) (hk : k < 2 ^ 53) : roundDouble (k : ℚ) = k := by
  unfold roundDouble
  have h : ¬ ((k : ℚ) < 0) := not_lt.mpr (Nat.cast_nonneg k)
  rw [if_neg h]
  simp only [Rat.num_natCast, Rat.den_natCast, Int.natAbs_ofNat]
  exact divRound_one k hk

theorem roundDouble_intCast (z : Int) (hz : z.natAbs < 2 ^ 53) : roundDouble (z : ℚ) = z := by
  rcases Int.natAbs_eq z with h | h
  · have e : (z : ℚ) = ((z.natAbs : ℕ) : ℚ) := by
      rw [← Int.cast_natCast, ← h]
    rw [e]
    exact roundDouble_natCast _ hz
  · have e : (z : ℚ) = -((z.natAbs : ℕ) : ℚ) := by
      rw [← Int.cast_natCast, ← Int.cast_neg, ← h]
    rw [e, roundDouble_neg, roundDouble_natCast _ hz]

/-- Every rounded value is an integer over a power of two. -/
theorem roundDouble_dyadic (q : ℚ) : ∃ (N : Int) (j : Nat), roundDouble q = (N : ℚ) / 2 ^ j := by
  unfold roundDouble divRound
  generalize roundTo53 _ = R
  split
  · refine ⟨-(R : Int), bitLength q.den + 55, ?_⟩
    push_cast
    rw [neg_div]
  · exact ⟨(R : Int), bitLength q.den + 55, by push_cast; rfl⟩

/-- A fraction whose denominator is a multiple of 3 and whose numerator is not is
no integer over a power of two. -/
theorem not_dyadic_of_three (a b : Int) (hb : b ≠ 0) (h3 : (3 : Int) ∣ b) (ha : ¬ (3 : Int) ∣ a)
    (N : Int) (j : Nat) : (a : ℚ) / b ≠ (N : ℚ) / 2 ^ j := by
  intro h
  have hbq : (b : ℚ) ≠ 0 := Int.cast_ne_zero.mpr hb
  rw [div_eq_div_iff hbq (by positivity)] at h
  have h' : a * 2 ^ j = N * b := by exact_mod_cast h
  have hd : (3 : Int) ∣ a * 2 ^ j := by
    rw [h']
    exact Dvd.dvd.mul_left h3 N
  have hp : Prime (3 : Int) := Int.prime_three
  rcases hp.dvd_or_dvd hd with h1 | h1
  · exact ha h1
  · have := hp.dvd_of_dvd_pow h1
    norm_num at this

/-- The rounding error is at most one part in `2 ^ 51` of the exact value. -/
theorem roundDouble_error (q : ℚ) : |roundDouble q - q| ≤ |q| / 2 ^ 51 := by
  rcases le_or_lt 0 q with hq | hq
  · obtain ⟨h1, h2⟩ := roundDouble_bounds q hq
    rw [abs_of_nonneg hq, abs_le]
    constructor <;> linarith
  · have hq' : 0 ≤ -q := by linarith
    obtain ⟨h1, h2⟩ := roundDouble_bounds (-q) hq'
    rw [roundDouble_neg] at h1 h2
    rw [abs_of_neg hq, abs_le]
    constructor <;> linarith

/-- Evaluation of `roundDouble` on a non-negative rational from its numerator,
its denominator and the rounded significand. -/
theorem roundDouble_eval (q : ℚ) (a b k R : Nat) (hq : 0 ≤ q) (hn : q.num = a)
    (hd : q.den = b) (hk : bitLength b = k)
    (hR : roundTo53 (2 * (a * 2 ^ (k + 54) / b)
        + (if a * 2 ^ (k + 54) % b = 0 then 0 else 1)) = R) :
    roundDouble q = (R : ℚ) / 2 ^ (k + 55) := by
  unfold roundDouble divRound
  rw [if_neg (not_lt.mpr hq), hn, hd, Int.natAbs_ofNat, hk, hR]

set_option maxRecDepth 100000 in
/-- Some values of the rounding: `0.1` and `200 / 3` are rounded to the nearest
`double`, and near `1e18`, where consecutive `double` values are `128` apart,
sums and products are absorbed or moved to a multiple of `128`. -/
theorem roundDouble_examples :
    roundDouble (1 / 10) = 3602879701896397 / 36028797018963968
    ∧ roundDouble (200 / 3) = 4691249611844267 / 70368744177664
    ∧ roundDouble (2000000000000000001 / 2) = 1000000000000000000
    ∧ roundDouble (2000000000000000011 / 2) = 1000000000000000000
    ∧ roundDouble (1000000000000000000 / 99) = 10101010101010102
    ∧ roundDouble 1000000000000000098 = 1000000000000000128 := by
  refine ⟨?_, ?_, ?_, ?_, ?_, ?_⟩
  · rw [roundDouble_eval (1 / 10) 1 10 4 57646075230342352 (by norm_num) (by norm_num)
      (by norm_num) (by decide) (by decide)]
    norm_num
  · rw [roundDouble_eval (200 / 3) 200 3 2 9607679205057058816 (by norm_num) (by norm_num)
      (by norm_num) (by decide) (by decide)]
    norm_num
  · rw [roundDouble_eval (2000000000000000001 / 2) 2000000000000000001 2 2
      144115188075855872000000000000000000 (by norm_num) (by norm_num) (by norm_num)
      (by decide) (by decide)]
    norm_num
  · rw [roundDouble_eval (2000000000000000011 / 2) 2000000000000000011 2 2
      144115188075855872000000000000000000 (by norm_num) (by norm_num) (by norm_num)
      (by decide) (by decide)]
    norm_num
  · rw [roundDouble_eval (1000000000000000000 / 99) 1000000000000000000 99 7
      46582687054822104605507371776606208 (by norm_num) (by norm_num) (by norm_num)
      (by decide) (by decide)]
    norm_num
  · rw [roundDouble_eval 1000000000000000098 1000000000000000098 1 1
      72057594037927945223372036854775808 (by norm_num) (by norm_num) (by norm_num)
      (by decide) (by decide)]
    norm_num

/-! ### Reporting helpers -/

/-- Labels read inside the vector are members of it. -/
theorem getD_mem_of_lt (v : List Int) (i : Nat) (h : i < v.length) : v.getD i 0 ∈ v := by
  rw [List.getD_eq_getElem v 0 h]
  exact List.getElem_mem h

/-- Unfolding of `pairCount` at a successor bound. -/
theorem pairCount_succ (y_true y_pred : List Int) (a b : Int) (n : Nat) :
    pairCount y_true y_pred a b (n + 1)
      = pairCount y_true y_pred a b n
        + (if y_true.getD n 0 = a ∧ y_pred.getD n 0 = b then 1 else 0) := by
  unfold pairCount
  rw [List.range_succ, List.countP_append]
  simp only [List.countP_cons, List.countP_nil, decide_eq_true_eq, Nat.zero_add]

/-- Unfolding of `matchCount` at a successor bound. -/
theorem matchCount_succ (y_true y_pred : List Int) (n : Nat) :
    matchCount y_true y_pred (n + 1)
      = matchCount y_true y_pred n
        + (if y_true.getD n 0 = y_pred.getD n 0 then 1 else 0) := by
  unfold matchCount
  rw [List.range_succ, List.countP_append]
  simp only [List.countP_cons, List.countP_nil, decide_eq_true_eq, Nat.zero_add]

/-- Unfolding of `labelCount` at a successor bound. -/
theorem labelCount_succ (y_true : List Int) (a : Int) (n : Nat) :
    labelCount y_true a (n + 1)
      = labelCount y_true a n + (if y_true.getD n 0 = a then 1 else 0) := by
  unfold labelCount
  rw [List.range_succ, List.countP_append]
  simp only [List.countP_cons, List.countP_nil, decide_eq_true_eq, Nat.zero_add]

/-- The pair counter never exceeds the number of inspected positions. -/
theorem pairCount_le (y_true y_pred : List Int) (a b : Int) (n : Nat) :
    pairCount y_true y_pred a b n ≤ n := by
  unfold pairCount
  calc List.countP _ (List.range n) ≤ (List.range n).length := List.countP_le_length _
    _ = n := List.length_range n

/-- The number of matches never exceeds the number of inspected positions. -/
theorem matchCount_le (y_true y_pred : List Int) (n : Nat) :
    matchCount y_true y_pred n ≤ n := by
  unfold matchCount
  calc List.countP _ (List.range n) ≤ (List.range n).length := List.countP_le_length _
    _ = n := List.length_range n

/-- The accuracy loop holds the number of matching positions, wrapped to 32 bits. -/
theorem computeAccuracy_loop (y_true y_pred : List Int) (n : Nat) :
    (List.range n).foldl (computeAccuracy_body y_true y_pred) 0
      = wrapInt32 (matchCount y_true y_pred n : Int) := by
  induction n with
  | zero =>
    have h0 : matchCount y_true y_pred 0 = 0 := rfl
    rw [h0, Nat.cast_zero, wrapInt32_zero]
    rfl
  | succ k ih =>
    rw [List.range_succ, List.foldl_append, ih, matchCount_succ]
    simp only [List.foldl_cons, List.foldl_nil, computeAccuracy_body]
    split
    · push_cast
      exact wrapInt32_succ _
    · simp

/-- The four forms of `cm[r][c]++` on a 2×2 matrix. -/
theorem cmIncr_two_by_two (a b c d : Int) :
    cmIncr [[a, b], [c, d]] 0 0 = [[wrapInt32 (a + 1), b], [c, d]]
    ∧ cmIncr [[a, b], [c, d]] 0 1 = [[a, wrapInt32 (b + 1)], [c, d]]
    ∧ cmIncr [[a, b], [c, d]] 1 0 = [[a, b], [wrapInt32 (c + 1), d]]
    ∧ cmIncr [[a, b], [c, d]] 1 1 = [[a, b], [c, wrapInt32 (d + 1)]] :=
  ⟨rfl, rfl, rfl, rfl⟩

/-- The confusion-matrix loop keeps the four counters of the label pairs, each
wrapped to 32 bits. -/
theorem confusionMatrix_loop (y_true y_pred : List Int) (n : Nat)
    (hn : n ≤ y_true.length) (hlen : y_true.length = y_pred.length)
    (ht : ∀ v ∈ y_true, v = 0 ∨ v = 1) (hp : ∀ v ∈ y_pred, v = 0 ∨ v = 1) :
    (List.range n).foldl (confusionMatrix_body y_true y_pred)
        (List.replicate 2 (List.replicate 2 0))
      = [[wrapInt32 (pairCount y_true y_pred 0 0 n : Int),
          wrapInt32 (pairCount y_true y_pred 0 1 n : Int)],
         [wrapInt32 (pairCount y_true y_pred 1 0 n : Int),
          wrapInt32 (pairCount y_true y_pred 1 1 n : Int)]] := by
  induction n with
  | zero =>
    have h0 : ∀ a b : Int, pairCount y_true y_pred a b 0 = 0 := fun _ _ => rfl
    simp only [h0, Nat.cast_zero, wrapInt32_zero]
    rfl
  | succ k ih =>
    have hk : k < y_true.length := hn
    rw [List.range_succ, List.foldl_append, ih (Nat.le_of_lt hk)]
    simp only [pairCount_succ, List.foldl_cons, List.foldl_nil, confusionMatrix_body]
    have h10 : ¬ ((1 : Int) = 0) := by decide
    have h01 : ¬ ((0 : Int) = 1) := by decide
    rcases ht _ (getD_mem_of_lt y_true k hk) with h0 | h1
    · rcases hp _ (getD_mem_of_lt y_pred k (hlen ▸ hk)) with p0 | p1
      · simp only [h0, p0, h10, h01, if_true, if_false, and_self, and_false, false_and,
          (cmIncr_two_by_two _ _ _ _).1, wrapInt32_succ, Nat.add_zero, Nat.cast_add,
          Nat.cast_one]
      · simp only [h0, p1, h10, h01, if_true, if_false, and_self, and_false, false_and,
          and_true, true_and, (cmIncr_two_by_two _ _ _ _).2.1, wrapInt32_succ, Nat.add_zero,
          Nat.cast_add, Nat.cast_one]
    · rcases hp _ (getD_mem_of_lt y_pred k (hlen ▸ hk)) with p0 | p1
      · simp only [h1, p0, h10, h01, if_true, if_false, and_self, and_false, false_and,
          and_true, true_and, (cmIncr_two_by_two _ _ _ _).2.2.1, wrapInt32_succ,
          Nat.add_zero, Nat.cast_add, Nat.cast_one]
      · simp only [h1, p1, h10, h01, if_true, if_false, and_self, and_false, false_and,
          and_true, true_and, (cmIncr_two_by_two _ _ _ _).2.2.2, wrapInt32_succ,
          Nat.add_zero, Nat.cast_add, Nat.cast_one]

/-- A counter of at most `n < 2 ^ 31` positions is not changed by the wrap. -/
theorem wrapInt32_count (c n : Nat) (hc : c ≤ n) (hn : n < 2 ^ 31) :
    wrapInt32 (c : Int) = c := by
  apply wrapInt32_of_range <;> omega

/-- Reading a constant vector gives the constant at every index. -/
theorem getD_replicate_zero (N i : Nat) : (List.replicate N (0 : Int)).getD i 0 = 0 := by
  by_cases h : i < (List.replicate N (0 : Int)).length
  · rw [List.getD_eq_getElem _ _ h, List.getElem_replicate]
  · exact List.getD_eq_default _ _ (not_lt.mp h)

/-- On two all-zero vectors every inspected position is a `(0, 0)` pair. -/
theorem pairCount_replicate (N n : Nat) :
    pairCount (List.replicate N 0) (List.replicate N 0) 0 0 n = n
    ∧ pairCount (List.replicate N 0) (List.replicate N 0) 0 1 n = 0
    ∧ pairCount (List.replicate N 0) (List.replicate N 0) 1 0 n = 0
    ∧ pairCount (List.replicate N 0) (List.replicate N 0) 1 1 n = 0
    ∧ matchCount (List.replicate N 0) (List.replicate N 0) n = n
    ∧ labelCount (List.replicate N 0) 0 n = n := by
  induction n with
  | zero => exact ⟨rfl, rfl, rfl, rfl, rfl, rfl⟩
  | succ k ih =>
    obtain ⟨i1, i2, i3, i4, i5, i6⟩ := ih
    have h10 : ¬ ((1 : Int) = 0) := by decide
    have h01 : ¬ ((0 : Int) = 1) := by decide
    simp only [pairCount_succ, matchCount_succ, labelCount_succ, getD_replicate_zero, i1, i2,
      i3, i4, i5, i6, h10, h01, and_self, and_false, false_and, if_true, if_false,
      Nat.add_zero, and_true]

/-- The confusion matrix of two all-zero vectors of `N` elements. -/
theorem confusionMatrix_replicate (N : Nat) :
    confusionMatrix (List.replicate N 0) (List.replicate N 0)
      = [[wrapInt32 (N : Int), 0], [0, 0]] := by
  have hmem : ∀ v ∈ List.replicate N (0 : Int), v = 0 ∨ v = 1 :=
    fun v hv => Or.inl (List.eq_of_mem_replicate hv)
  have h := confusionMatrix_loop (List.replicate N 0) (List.replicate N 0)
    (List.replicate N (0 : Int)).length (Nat.le_refl _) rfl hmem hmem
  obtain ⟨p1, p2, p3, p4, _, _⟩ := pairCount_replicate N (List.replicate N (0 : Int)).length
  rw [p1, p2, p3, p4, Nat.cast_zero, wrapInt32_zero] at h
  unfold confusionMatrix
  rw [h, List.length_replicate]

/-- C1 as stated fails once a counter passes `2 ^ 31 - 1`: on two all-zero vectors
of `2 ^ 31` elements (equal length, entries in `{0,1}`) there are `2 ^ 31` indices
with true label `0` and predicted label `0`, but `cm[0][0]` is `-2 ^ 31`. -/
theorem confusionMatrix_overflow_counterexample :
    (List.replicate 2147483648 (0 : Int)).length = (List.replicate 2147483648 (0 : Int)).length
    ∧ (∀ v ∈ List.replicate 2147483648 (0 : Int), v = 0 ∨ v = 1)
    ∧ pairCount (List.replicate 2147483648 0) (List.replicate 2147483648 0) 0 0
        (List.replicate 2147483648 (0 : Int)).length = 2147483648
    ∧ cmAt (confusionMatrix (List.replicate 2147483648 0) (List.replicate 2147483648 0)) 0 0
        = -2147483648 := by
  refine ⟨rfl, fun v hv => Or.inl (List.eq_of_mem_replicate hv), ?_, ?_⟩
  · rw [List.length_replicate]
    exact (pairCount_replicate 2147483648 2147483648).1
  · rw [confusionMatrix_replicate]
    simp only [cmAt, List.getD_cons_zero]
    unfold wrapInt32
    norm_num

/-- C1 (amended). For equal-length label vectors of fewer than `2 ^ 31` elements
with entries in `{0,1}`, `confusionMatrix` returns `[[TN, FP], [FN, TP]]`: entry
`[a][b]` is the number of indices whose true label is `a` and whose predicted
label is `b`. -/
theorem confusionMatrix_layout (y_true y_pred : List Int)
    (hlen : y_true.length = y_pred.length) (hbound : y_true.length < 2 ^ 31)
    (ht : ∀ v ∈ y_true, v = 0 ∨ v = 1) (hp : ∀ v ∈ y_pred, v = 0 ∨ v = 1) :
    confusionMatrix y_true y_pred
      = [[(pairCount y_true y_pred 0 0 y_true.length : Int),
          (pairCount y_true y_pred 0 1 y_true.length : Int)],
         [(pairCount y_true y_pred 1 0 y_true.length : Int),
          (pairCount y_true y_pred 1 1 y_true.length : Int)]] := by
  have h := confusionMatrix_loop y_true y_pred y_true.length (Nat.le_refl _) hlen ht hp
  rw [wrapInt32_count _ _ (pairCount_le y_true y_pred 0 0 _) hbound,
    wrapInt32_count _ _ (pairCount_le y_true y_pred 0 1 _) hbound,
    wrapInt32_count _ _ (pairCount_le y_true y_pred 1 0 _) hbound,
    wrapInt32_count _ _ (pairCount_le y_true y_pred 1 1 _) hbound] at h
  exact h

/-- Witness for C1 (amended) on `y_true = [0,0,1,1,1]`, `y_pred = [0,1,0,1,1]`. -/
theorem confusionMatrix_layout_witness :
    confusionMatrix [0, 0, 1, 1, 1] [0, 1, 0, 1, 1] = [[1, 1], [1, 2]] := by
  have h := confusionMatrix_layout [0, 0, 1, 1, 1] [0, 1, 0, 1, 1] (by decide) (by decide)
    (by decide) (by decide)
  rw [h]
  decide

/-- Relations between the counters used by the two reporting helpers. -/
theorem counts_relations (y_true y_pred : List Int) (n : Nat)
    (hn : n ≤ y_true.length) (hlen : y_true.length = y_pred.length)
    (ht : ∀ v ∈ y_true, v = 0 ∨ v = 1) (hp : ∀ v ∈ y_pred, v = 0 ∨ v = 1) :
    pairCount y_true y_pred 0 0 n + pairCount y_true y_pred 0 1 n = labelCount y_true 0 n
    ∧ pairCount y_true y_pred 1 0 n + pairCount y_true y_pred 1 1 n = labelCount y_true 1 n
    ∧ labelCount y_true 0 n + labelCount y_true 1 n = n
    ∧ matchCount y_true y_pred n
        = pairCount y_true y_pred 0 0 n + pairCount y_true y_pred 1 1 n := by
  induction n with
  | zero => simp [pairCount, labelCount, matchCount]
  | succ k ih =>
    have hk : k < y_true.length := hn
    obtain ⟨i1, i2, i3, i4⟩ := ih (Nat.le_of_lt hk)
    simp only [pairCount_succ, labelCount_succ, matchCount_succ]
    rcases ht _ (getD_mem_of_lt y_true k hk) with h0 | h1
    · rcases hp _ (getD_mem_of_lt y_pred k (hlen ▸ hk)) with p0 | p1
      · simp only [h0, p0]; simp; omega
      · simp only [h0, p1]; simp; omega
    · rcases hp _ (getD_mem_of_lt y_pred k (hlen ▸ hk)) with p0 | p1
      · simp only [h1, p0]; simp; omega
      · simp only [h1, p1]; simp; omega

/-- All inspected positions match exactly when the match counter is full. -/
theorem matchCount_eq_iff (y_true y_pred : List Int) (n : Nat) :
    matchCount y_true y_pred n = n ↔ ∀ i < n, y_true.getD i 0 = y_pred.getD i 0 := by
  unfold matchCount
  conv_lhs => rhs; rw [← List.length_range n]
  rw [List.countP_eq_length]
  simp only [List.mem_range, decide_eq_true_eq]

/-- No inspected position matches exactly when the match counter is zero. -/
theorem matchCount_eq_zero_iff (y_true y_pred : List Int) (n : Nat) :
    matchCount y_true y_pred n = 0 ↔ ∀ i < n, y_true.getD i 0 ≠ y_pred.getD i 0 := by
  unfold matchCount
  rw [List.countP_eq_zero]
  simp only [List.mem_range, decide_eq_true_eq]

/-- The value of `computeAccuracy` on a non-empty `y_true`, in terms of the wrapped
match counter. -/
theorem computeAccuracy_eq_wrapped (y_true y_pred : List Int) (hne : y_true ≠ []) :
    computeAccuracy y_true y_pred
      = roundDouble
          (roundDouble
              (100 * roundDouble
                ((wrapInt32 (matchCount y_true y_pred y_true.length : Int) : Int) : ℚ))
            / roundDouble (y_true.length : ℚ)) := by
  unfold computeAccuracy
  have h : y_true.isEmpty = false := by
    cases y_true with
    | nil => exact absurd rfl hne
    | cons a t => rfl
  simp only [h, Bool.false_eq_true, if_false, computeAccuracy_loop]

/-- Below `2 ^ 31` elements the conversions and the product are exact, and only
the quotient is rounded. -/
theorem computeAccuracy_eq (y_true y_pred : List Int) (hne : y_true ≠ [])
    (hbound : y_true.length < 2 ^ 31) :
    computeAccuracy y_true y_pred
      = roundDouble (100 * (matchCount y_true y_pred y_true.length : ℚ)
          / (y_true.length : ℚ)) := by
  have hm := matchCount_le y_true y_pred y_true.length
  rw [computeAccuracy_eq_wrapped y_true y_pred hne, wrapInt32_count _ _ hm hbound,
    Int.cast_natCast, roundDouble_natCast _ (by omega), roundDouble_natCast _ (by omega)]
  have h100 : (100 : ℚ) * (matchCount y_true y_pred y_true.length : ℚ)
      = ((100 * matchCount y_true y_pred y_true.length : Nat) : ℚ) := by push_cast; rfl
  rw [h100, roundDouble_natCast _ (by omega)]

/-- The accuracy of two all-zero vectors of `N ≥ 1` elements. -/
theorem computeAccuracy_replicate (N : Nat) (hN : 0 < N) :
    computeAccuracy (List.replicate N 0) (List.replicate N 0)
      = roundDouble
          (roundDouble (100 * roundDouble ((wrapInt32 (N : Int) : Int) : ℚ))
            / roundDouble (N : ℚ)) := by
  have hne : List.replicate N (0 : Int) ≠ [] := by
    intro h
    have hl := congrArg List.length h
    rw [List.length_replicate] at hl
    exact absurd hl (Nat.pos_iff_ne_zero.mp hN)
  rw [computeAccuracy_eq_wrapped _ _ hne, List.length_replicate,
    (pairCount_replicate N N).2.2.2.2.1]

/-- The value `200 / 3` is not a `double`. -/
theorem roundDouble_ne_two_thirds (q : ℚ) : roundDouble q ≠ 200 / 3 := by
  obtain ⟨N, j, h⟩ := roundDouble_dyadic q
  rw [h]
  have := not_dyadic_of_three 200 3 (by decide) (by decide) (by decide) N j
  intro hc
  apply this
  rw [hc]
  norm_num

/-- C5 as stated fails in three ways. On empty input the result is `0`, not `100`,
although every position (there is none) matches. On `y_true = [0,1,1]`,
`y_pred = [0,0,1]` the result is a `double`, not `100 * 2 / 3`. On two all-zero
vectors of `2 ^ 31` elements, where every position matches, `correct` wraps to
`-2 ^ 31` and the result is `-100`. -/
theorem computeAccuracy_counterexample :
    ¬ (computeAccuracy ([] : List Int) ([] : List Int) = 100
        ↔ ∀ i < ([] : List Int).length,
            ([] : List Int).getD i 0 = ([] : List Int).getD i 0)
    ∧ (matchCount [0, 1, 1] [0, 0, 1] ([0, 1, 1] : List Int).length = 2
        ∧ computeAccuracy [0, 1, 1] [0, 0, 1] ≠ 100 * 2 / 3)
    ∧ (matchCount (List.replicate 2147483648 0) (List.replicate 2147483648 0)
          (List.replicate 2147483648 (0 : Int)).length = 2147483648
        ∧ computeAccuracy (List.replicate 2147483648 0) (List.replicate 2147483648 0)
          = -100) := by
  refine ⟨?_, ⟨by decide, ?_⟩, ?_, ?_⟩
  · intro h
    have h100 : computeAccuracy ([] : List Int) ([] : List Int) = 100 :=
      h.mpr (fun i hi => absurd hi (Nat.not_lt_zero i))
    simp [computeAccuracy] at h100
  · rw [computeAccuracy_eq [0, 1, 1] [0, 0, 1] (by decide) (by decide)]
    have := roundDouble_ne_two_thirds
      (100 * (matchCount [0, 1, 1] [0, 0, 1] ([0, 1, 1] : List Int).length : ℚ)
        / (([0, 1, 1] : List Int).length : ℚ))
    intro hc
    apply this
    rw [hc]
    norm_num
  · rw [List.length_replicate]
    exact (pairCount_replicate 2147483648 2147483648).2.2.2.2.1
  · rw [computeAccuracy_replicate 2147483648 (by norm_num)]
    have hw : wrapInt32 ((2147483648 : Nat) : Int) = -2147483648 := by
      unfold wrapInt32
      norm_num
    rw [hw, roundDouble_intCast _ (by decide)]
    have h1 : (100 : ℚ) * ((-2147483648 : Int) : ℚ) = ((-214748364800 : Int) : ℚ) := by
      norm_num
    rw [h1, roundDouble_intCast _ (by decide), roundDouble_natCast _ (by norm_num)]
    have h2 : ((-214748364800 : Int) : ℚ) / ((2147483648 : Nat) : ℚ) = ((-100 : Int) : ℚ) := by
      norm_num
    rw [h2, roundDouble_intCast _ (by decide)]
    norm_num

/-- The accuracy of two matches among three positions is the `double`
`66.66666666666667`. -/
theorem computeAccuracy_example :
    computeAccuracy [0, 1, 1] [0, 0, 1] = 4691249611844267 / 70368744177664 := by
  rw [computeAccuracy_eq [0, 1, 1] [0, 0, 1] (by decide) (by decide)]
  have hm : matchCount [0, 1, 1] [0, 0, 1] ([0, 1, 1] : List Int).length = 2 := by decide
  have hl : ([0, 1, 1] : List Int).length = 3 := rfl
  rw [hm, hl]
  have e : (100 : ℚ) * ((2 : Nat) : ℚ) / ((3 : Nat) : ℚ) = 200 / 3 := by norm_num
  rw [e]
  exact roundDouble_examples.2.1

/-- With a mismatch among fewer than `2 ^ 31` positions the rounded percentage
stays below `100`. -/
theorem roundDouble_percentage_lt (m n : Nat) (hmn : m < n) (hn : n < 2 ^ 31) :
    roundDouble (100 * (m : ℚ) / (n : ℚ)) < 100 := by
  have hnq : (0 : ℚ) < n := Nat.cast_pos.mpr (by omega)
  have hx : (0 : ℚ) ≤ 100 * (m : ℚ) / (n : ℚ) := by positivity
  have hub := (roundDouble_bounds _ hx).2
  have hnat : (2 ^ 51 + 1) * m < 2 ^ 51 * n := by
    norm_num at hn ⊢
    omega
  have hq : ((2 : ℚ) ^ 51 + 1) * m < 2 ^ 51 * n := by exact_mod_cast hnat
  have hlt : (1 + 1 / 2 ^ 51) * (100 * (m : ℚ) / (n : ℚ)) < 100 := by
    have e : (1 + 1 / 2 ^ 51) * (100 * (m : ℚ) / (n : ℚ))
        = 100 * (((2 : ℚ) ^ 51 + 1) * m) / (2 ^ 51 * n) := by
      field_simp
      ring
    rw [e, div_lt_iff₀ (by positivity)]
    linarith
  linarith

/-- C5 (amended). With `y_pred` at least as long as `y_true` and fewer than
`2 ^ 31` elements, `computeAccuracy` is `0` on an empty `y_true` and otherwise the
`double` nearest to `100 * matches / length`, within one part in `2 ^ 51` of it; it
lies in `[0, 100]`, is `100` exactly when `y_true` is non-empty and every position
matches, and on non-empty input is `0` exactly when no position matches. -/
theorem computeAccuracy_percentage (y_true y_pred : List Int)
    (hlen : y_true.length ≤ y_pred.length) (hbound : y_true.length < 2 ^ 31) :
    (y_true = [] → computeAccuracy y_true y_pred = 0)
    ∧ (y_true ≠ [] →
        computeAccuracy y_true y_pred
          = roundDouble (100 * (matchCount y_true y_pred y_true.length : ℚ)
              / (y_true.length : ℚ))
        ∧ |computeAccuracy y_true y_pred
              - 100 * (matchCount y_true y_pred y_true.length : ℚ) / (y_true.length : ℚ)|
            ≤ 100 * (matchCount y_true y_pred y_true.length : ℚ) / (y_true.length : ℚ)
                / 2 ^ 51)
    ∧ 0 ≤ computeAccuracy y_true y_pred
    ∧ computeAccuracy y_true y_pred ≤ 100
    ∧ (computeAccuracy y_true y_pred = 100
        ↔ y_true ≠ [] ∧ ∀ i < y_true.length, y_true.getD i 0 = y_pred.getD i 0)
    ∧ (y_true ≠ [] → (computeAccuracy y_true y_pred = 0
        ↔ ∀ i < y_true.length, y_true.getD i 0 ≠ y_pred.getD i 0)) := by
  by_cases hne : y_true = []
  · subst hne
    have h0 : computeAccuracy ([] : List Int) y_pred = 0 := by simp [computeAccuracy]
    refine ⟨fun _ => h0, fun h => absurd rfl h, ?_, ?_, ?_, fun h => absurd rfl h⟩
    · rw [h0]
    · rw [h0]; norm_num
    · rw [h0]
      constructor
      · intro h; norm_num at h
      · intro h; exact absurd rfl h.1
  · have hpos : 0 < y_true.length := List.length_pos.mpr hne
    have hn : (0 : ℚ) < (y_true.length : ℚ) := Nat.cast_pos.mpr hpos
    have hmle := matchCount_le y_true y_pred y_true.length
    have heq := computeAccuracy_eq y_true y_pred hne hbound
    have hx : (0 : ℚ) ≤ 100 * (matchCount y_true y_pred y_true.length : ℚ)
        / (y_true.length : ℚ) := by positivity
    have hfull : matchCount y_true y_pred y_true.length = y_true.length →
        computeAccuracy y_true y_pred = 100 := by
      intro hm
      rw [heq, hm]
      have e : (100 : ℚ) * (y_true.length : ℚ) / (y_true.length : ℚ) = ((100 : Nat) : ℚ) := by
        field_simp
      rw [e]
      exact roundDouble_natCast 100 (by norm_num)
    have hpart : matchCount y_true y_pred y_true.length ≠ y_true.length →
        computeAccuracy y_true y_pred < 100 := by
      intro hm
      rw [heq]
      exact roundDouble_percentage_lt _ _ (lt_of_le_of_ne hmle hm) hbound
    refine ⟨fun h => absurd h hne, fun _ => ⟨heq, ?_⟩, ?_, ?_, ?_, fun _ => ?_⟩
    · have := roundDouble_error (100 * (matchCount y_true y_pred y_true.length : ℚ)
        / (y_true.length : ℚ))
      rw [abs_of_nonneg hx] at this
      rw [heq]
      exact this
    · rw [heq]
      exact roundDouble_nonneg _ hx
    · by_cases hm : matchCount y_true y_pred y_true.length = y_true.length
      · exact le_of_eq (hfull hm)
      · exact le_of_lt (hpart hm)
    · rw [← matchCount_eq_iff]
      constructor
      · intro h
        refine ⟨hne, ?_⟩
        by_contra hm
        exact absurd h (ne_of_lt (hpart hm))
      · intro h
        exact hfull h.2
    · rw [← matchCount_eq_zero_iff]
      constructor
      · intro h
        by_contra hm
        have hmpos : (0 : ℚ) < (matchCount y_true y_pred y_true.length : ℚ) :=
          Nat.cast_pos.mpr (Nat.pos_of_ne_zero hm)
        have hxpos : (0 : ℚ) < 100 * (matchCount y_true y_pred y_true.length : ℚ)
            / (y_true.length : ℚ) := by positivity
        have := roundDouble_pos _ hxpos
        rw [← heq, h] at this
        exact lt_irrefl _ this
      · intro h
        rw [heq, h]
        simp [roundDouble_zero]

/-- Witness for C5 (amended) on `y_true = [0,1,1,0]`, `y_pred = [0,1,0,0,1]`:
three of four positions match. -/
theorem computeAccuracy_percentage_witness :
    [(0 : Int), 1, 1, 0].length ≤ [(0 : Int), 1, 0, 0, 1].length
    ∧ [(0 : Int), 1, 1, 0].length < 2 ^ 31
    ∧ computeAccuracy [0, 1, 1, 0] [0, 1, 0, 0, 1] ≤ 100 :=
  ⟨by decide, by decide,
    (computeAccuracy_percentage [0, 1, 1, 0] [0, 1, 0, 0, 1] (by decide) (by decide)).2.2.2.1⟩

/-- C9 as stated fails in two ways. On `y_true = [0,1,1]`, `y_pred = [0,0,1]` the
accuracy is a `double`, not `100 * (cm[0][0] + cm[1][1]) / 3 = 200 / 3`. On two
all-zero vectors of `2 ^ 31` elements `cm[0][0]` wraps to `-2 ^ 31`, so the four
entries sum to `-2 ^ 31`, not to the length. -/
theorem accuracy_confusionMatrix_counterexample :
    (cmAt (confusionMatrix [0, 1, 1] [0, 0, 1]) 0 0
        + cmAt (confusionMatrix [0, 1, 1] [0, 0, 1]) 1 1 = 2
      ∧ computeAccuracy [0, 1, 1] [0, 0, 1]
        ≠ 100 * (((cmAt (confusionMatrix [0, 1, 1] [0, 0, 1]) 0 0
              + cmAt (confusionMatrix [0, 1, 1] [0, 0, 1]) 1 1 : Int) : ℚ))
            / (([0, 1, 1] : List Int).length : ℚ))
    ∧ cmAt (confusionMatrix (List.replicate 2147483648 0) (List.replicate 2147483648 0)) 0 0
        + cmAt (confusionMatrix (List.replicate 2147483648 0) (List.replicate 2147483648 0)) 0 1
        + cmAt (confusionMatrix (List.replicate 2147483648 0) (List.replicate 2147483648 0)) 1 0
        + cmAt (confusionMatrix (List.replicate 2147483648 0) (List.replicate 2147483648 0)) 1 1
      ≠ ((List.replicate 2147483648 (0 : Int)).length : Int) := by
  have hcm : cmAt (confusionMatrix [0, 1, 1] [0, 0, 1]) 0 0
      + cmAt (confusionMatrix [0, 1, 1] [0, 0, 1]) 1 1 = 2 := by decide
  refine ⟨⟨hcm, ?_⟩, ?_⟩
  · rw [hcm, computeAccuracy_eq [0, 1, 1] [0, 0, 1] (by decide) (by decide)]
    have := roundDouble_ne_two_thirds
      (100 * (matchCount [0, 1, 1] [0, 0, 1] ([0, 1, 1] : List Int).length : ℚ)
        / (([0, 1, 1] : List Int).length : ℚ))
    intro hc
    apply this
    rw [hc]
    norm_num
  · rw [confusionMatrix_replicate, List.length_replicate]
    simp only [cmAt, List.getD_cons_zero, List.getD_cons_succ]
    unfold wrapInt32
    norm_num

/-- C9 (amended). For equal-length, non-empty label vectors of fewer than `2 ^ 31`
elements with entries in `{0,1}`, the entries of the confusion matrix sum to the
length, its rows sum to the numbers of true-0 and true-1 samples, and
`computeAccuracy` is the `double` nearest to `100 * (cm[0][0] + cm[1][1]) / length`,
within one part in `2 ^ 51` of it. -/
theorem accuracy_confusionMatrix_consistent (y_true y_pred : List Int) (hne : y_true ≠ [])
    (hlen : y_true.length = y_pred.length) (hbound : y_true.length < 2 ^ 31)
    (ht : ∀ v ∈ y_true, v = 0 ∨ v = 1) (hp : ∀ v ∈ y_pred, v = 0 ∨ v = 1) :
    cmAt (confusionMatrix y_true y_pred) 0 0 + cmAt (confusionMatrix y_true y_pred) 0 1
        + cmAt (confusionMatrix y_true y_pred) 1 0 + cmAt (confusionMatrix y_true y_pred) 1 1
      = (y_true.length : Int)
    ∧ cmAt (confusionMatrix y_true y_pred) 0 0 + cmAt (confusionMatrix y_true y_pred) 0 1
      = (labelCount y_true 0 y_true.length : Int)
    ∧ cmAt (confusionMatrix y_true y_pred) 1 0 + cmAt (confusionMatrix y_true y_pred) 1 1
      = (labelCount y_true 1 y_true.length : Int)
    ∧ computeAccuracy y_true y_pred
      = roundDouble (100 * (((cmAt (confusionMatrix y_true y_pred) 0 0
                + cmAt (confusionMatrix y_true y_pred) 1 1 : Int) : ℚ))
          / (y_true.length : ℚ))
    ∧ |computeAccuracy y_true y_pred
          - 100 * (((cmAt (confusionMatrix y_true y_pred) 0 0
                + cmAt (confusionMatrix y_true y_pred) 1 1 : Int) : ℚ))
            / (y_true.length : ℚ)|
        ≤ |100 * (((cmAt (confusionMatrix y_true y_pred) 0 0
                + cmAt (confusionMatrix y_true y_pred) 1 1 : Int) : ℚ))
            / (y_true.length : ℚ)| / 2 ^ 51 := by
  obtain ⟨r1, r2, r3, r4⟩ :=
    counts_relations y_true y_pred y_true.length (Nat.le_refl _) hlen ht hp
  have hl := confusionMatrix_loop y_true y_pred y_true.length (Nat.le_refl _) hlen ht hp
  rw [wrapInt32_count _ _ (pairCount_le y_true y_pred 0 0 _) hbound,
    wrapInt32_count _ _ (pairCount_le y_true y_pred 0 1 _) hbound,
    wrapInt32_count _ _ (pairCount_le y_true y_pred 1 0 _) hbound,
    wrapInt32_count _ _ (pairCount_le y_true y_pred 1 1 _) hbound] at hl
  have hcm : confusionMatrix y_true y_pred
      = [[(pairCount y_true y_pred 0 0 y_true.length : Int),
          (pairCount y_true y_pred 0 1 y_true.length : Int)],
         [(pairCount y_true y_pred 1 0 y_true.length : Int),
          (pairCount y_true y_pred 1 1 y_true.length : Int)]] := hl
  have hacc : computeAccuracy y_true y_pred
      = roundDouble (100 * (((cmAt (confusionMatrix y_true y_pred) 0 0
                + cmAt (confusionMatrix y_true y_pred) 1 1 : Int) : ℚ))
          / (y_true.length : ℚ)) := by
    rw [hcm, computeAccuracy_eq y_true y_pred hne hbound, r4]
    simp only [cmAt, List.getD_cons_zero, List.getD_cons_succ]
    push_cast
    rfl
  refine ⟨?_, ?_, ?_, hacc, ?_⟩
  · rw [hcm]
    simp only [cmAt, List.getD_cons_zero, List.getD_cons_succ]
    omega
  · rw [hcm]
    simp only [cmAt, List.getD_cons_zero, List.getD_cons_succ]
    omega
  · rw [hcm]
    simp only [cmAt, List.getD_cons_zero, List.getD_cons_succ]
    omega
  · rw [hacc]
    exact roundDouble_error _

/-- Witness for C9 (amended) on `y_true = [0,1,1]`, `y_pred = [0,0,1]`. -/
theorem accuracy_confusionMatrix_consistent_witness :
    cmAt (confusionMatrix [0, 1, 1] [0, 0, 1]) 0 0
        + cmAt (confusionMatrix [0, 1, 1] [0, 0, 1]) 0 1
        + cmAt (confusionMatrix [0, 1, 1] [0, 0, 1]) 1 0
        + cmAt (confusionMatrix [0, 1, 1] [0, 0, 1]) 1 1
      = (([0, 1, 1] : List Int).length : Int) :=
  (accuracy_confusionMatrix_consistent [0, 1, 1] [0, 0, 1] (by decide) (by decide)
    (by decide) (by decide) (by decide)).1

/-! ### Split index -/

/-- The significand `train_ratio` is the nearest double to `7/10`: it is within
half a unit in the last place (`2 ^ (-54)`) of `7/10`. -/
theorem train_ratio_nearest :
    7 * 2 ^ 53 ≤ 10 * (2 * train_ratio) + 5 ∧ 10 * (2 * train_ratio) ≤ 7 * 2 ^ 53 + 5
    ∧ 2 ^ 52 ≤ 2 * train_ratio ∧ 2 * train_ratio < 2 ^ 53 := by
  unfold train_ratio
  norm_num

/-- The split index is strictly below the number of rows of a non-empty dataset. -/
theorem train_size_lt (n : Nat) (hn : 1 ≤ n) : train_size n < n := by
  unfold train_size train_ratio
  have h1 := (roundTo53_bounds n).1
  have h2 := (roundTo53_bounds (roundTo53 n * 3152519739159347)).1
  rw [Nat.div_lt_iff_lt_mul (Nat.pow_pos (by norm_num))]
  generalize roundTo53 (roundTo53 n * 3152519739159347) = q at *
  generalize roundTo53 n = a at *
  norm_num at h1 h2 ⊢
  omega

/-- The split index never exceeds the number of rows. -/
theorem train_size_le (n : Nat) : train_size n ≤ n := by
  rcases Nat.eq_zero_or_pos n with h | h
  · subst h; decide
  · exact Nat.le_of_lt (train_size_lt n h)

/-- From two rows on, the split index is at least one. -/
theorem train_size_pos (n : Nat) (hn : 2 ≤ n) : 1 ≤ train_size n := by
  unfold train_size train_ratio
  have h1 := (roundTo53_bounds n).2
  have h2 := (roundTo53_bounds (roundTo53 n * 3152519739159347)).2
  rw [Nat.le_div_iff_mul_le (Nat.pow_pos (by norm_num))]
  generalize roundTo53 (roundTo53 n * 3152519739159347) = q at *
  generalize roundTo53 n = a at *
  norm_num at h1 h2 ⊢
  omega

/-- The split index on some sizes: `100` rows give `70`, while `90` rows give `62`
because `90 * 0.7` rounds to the double just below `63`. -/
theorem train_size_examples :
    train_size 0 = 0 ∧ train_size 1 = 0 ∧ train_size 2 = 1 ∧ train_size 10 = 7
    ∧ train_size 90 = 62 ∧ train_size 100 = 70 := by
  decide

/-! ### Shuffle -/

/-- The shuffle loop builds both vectors by reading at the shuffled indices. -/
theorem shuffleLoop_fold {α : Type} [Zero α] (X : Matrix α) (y : List Int)
    (indices : List Nat) (k : Nat) :
    (List.range k).foldl (shuffle_body X y indices) ([], [])
      = ((List.range k).map (fun i => X.getD (indices.getD i 0) []),
         (List.range k).map (fun i => y.getD (indices.getD i 0) 0)) := by
  induction k with
  | zero => rfl
  | succ k ih =>
    rw [List.range_succ, List.foldl_append, ih]
    simp [shuffle_body]

/-- Reading a list at every index of its range gives the list back, mapped. -/
theorem map_range_getD {β γ : Type} (l : List β) (d : β) (f : β → γ) :
    (List.range l.length).map (fun i => f (l.getD i d)) = l.map f := by
  apply List.ext_getElem
  · simp
  · intro i h1 h2
    simp only [List.getElem_map, List.getElem_range]
    rw [List.getD_eq_getElem l d (by simpa using h2)]

/-- The vector `X_shuffled` is `X` read at `indices`, in order. -/
theorem X_shuffled_eq {α : Type} [Zero α] (X : Matrix α) (y : List Int)
    (indices : List Nat) :
    X_shuffled X y indices = indices.map (fun j => X.getD j []) := by
  unfold X_shuffled shuffleLoop
  rw [shuffleLoop_fold]
  exact map_range_getD indices 0 (fun j => X.getD j [])

/-- The vector `y_shuffled` is `y` read at `indices`, in order. -/
theorem y_shuffled_eq {α : Type} [Zero α] (X : Matrix α) (y : List Int)
    (indices : List Nat) :
    y_shuffled X y indices = indices.map (fun j => y.getD j 0) := by
  unfold y_shuffled shuffleLoop
  rw [shuffleLoop_fold]
  exact map_range_getD indices 0 (fun j => y.getD j 0)

/-- Pairing rows and labels index by index recovers the zipped dataset. -/
theorem zip_eq_map_range {α : Type} (X : Matrix α) (y : List Int)
    (hlen : X.length = y.length) :
    (List.range X.length).map (fun j => (X.getD j [], y.getD j 0)) = X.zip y := by
  apply List.ext_getElem
  · simp [hlen]
  · intro i h1 h2
    have hx : i < X.length := by simpa using h1
    have hy : i < y.length := hlen ▸ hx
    simp only [List.getElem_map, List.getElem_range, List.getElem_zip]
    rw [List.getD_eq_getElem X [] hx, List.getD_eq_getElem y 0 hy]

/-- C10. For a dataset with as many labels as rows and any permutation `indices`
of `0..n-1`: the shuffled vectors read `X` and `y` at `indices[i]`, the split
index is at most `n`, training and test parts concatenate to the shuffled vectors
with lengths `train_size` and `n - train_size`, and the (row, label) pairs of the
two parts together are a rearrangement of the original pairs. -/
theorem shuffle_split_partition {α : Type} [Zero α] (X : Matrix α) (y : List Int)
    (indices : List Nat) (hlen : X.length = y.length)
    (hperm : indices.Perm (List.range X.length)) :
    (X_shuffled X y indices).length = X.length
    ∧ (y_shuffled X y indices).length = X.length
    ∧ (∀ i < X.length,
        (X_shuffled X y indices).getD i [] = X.getD (indices.getD i 0) []
        ∧ (y_shuffled X y indices).getD i 0 = y.getD (indices.getD i 0) 0)
    ∧ train_size (X_shuffled X y indices).length ≤ X.length
    ∧ X_train X y indices ++ X_test X y indices = X_shuffled X y indices
    ∧ y_train X y indices ++ y_test X y indices = y_shuffled X y indices
    ∧ (X_train X y indices).length = train_size X.length
    ∧ (y_train X y indices).length = train_size X.length
    ∧ (X_test X y indices).length = X.length - train_size X.length
    ∧ (y_test X y indices).length = X.length - train_size X.length
    ∧ ((X_train X y indices).zip (y_train X y indices)
        ++ (X_test X y indices).zip (y_test X y indices)).Perm (X.zip y) := by
  have hi : indices.length = X.length := by
    rw [hperm.length_eq, List.length_range]
  have hX : (X_shuffled X y indices).length = X.length := by
    rw [X_shuffled_eq, List.length_map, hi]
  have hY : (y_shuffled X y indices).length = X.length := by
    rw [y_shuffled_eq, List.length_map, hi]
  have hts : train_size X.length ≤ X.length := train_size_le _
  have hzip : (X_shuffled X y indices).zip (y_shuffled X y indices)
      = indices.map (fun j => (X.getD j [], y.getD j 0)) := by
    rw [X_shuffled_eq, y_shuffled_eq, List.zip_map']
  refine ⟨hX, hY, ?_, ?_, ?_, ?_, ?_, ?_, ?_, ?_, ?_⟩
  · intro i hlt
    have hii : i < indices.length := hi ▸ hlt
    rw [X_shuffled_eq, y_shuffled_eq]
    have h1 : i < (indices.map (fun j => X.getD j [])).length := by simpa using hii
    have h2 : i < (indices.map (fun j => y.getD j 0)).length := by simpa using hii
    rw [List.getD_eq_getElem _ [] h1, List.getD_eq_getElem _ 0 h2,
      List.getD_eq_getElem indices 0 hii, List.getElem_map, List.getElem_map]
    exact ⟨rfl, rfl⟩
  · rw [hX]; exact hts
  · exact List.take_append_drop _ _
  · exact List.take_append_drop _ _
  · unfold X_train
    rw [List.length_take, hX]
    exact Nat.min_eq_left hts
  · unfold y_train
    rw [List.length_take, hX, hY]
    exact Nat.min_eq_left hts
  · unfold X_test
    rw [List.length_drop, hX]
  · unfold y_test
    rw [List.length_drop, hX, hY]
  · have hl : (X_train X y indices).length = (y_train X y indices).length := by
      unfold X_train y_train
      rw [List.length_take, List.length_take, hX, hY]
    rw [← List.zip_append hl]
    unfold X_train y_train X_test y_test
    rw [List.take_append_drop, List.take_append_drop, hzip,
      ← zip_eq_map_range X y hlen]
    exact hperm.map _

/-- Witness for C10 on three rows shuffled by `indices = [2, 0, 1]`. -/
theorem shuffle_split_partition_witness :
    [(2 : Nat), 0, 1].Perm (List.range 3)
    ∧ X_train [[(1 : ℚ), 2], [3, 4], [5, 6]] [0, 1, 1] [2, 0, 1]
        ++ X_test [[(1 : ℚ), 2], [3, 4], [5, 6]] [0, 1, 1] [2, 0, 1]
      = X_shuffled [[(1 : ℚ), 2], [3, 4], [5, 6]] [0, 1, 1] [2, 0, 1] :=
  ⟨by decide,
   (shuffle_split_partition [[(1 : ℚ), 2], [3, 4], [5, 6]] [0, 1, 1] [2, 0, 1]
      (by decide) (by decide)).2.2.2.2.1⟩

/-! ### CSV loading loop -/

/-- The tokeniser and the ordinary field split differ at most by one final empty
field. -/
theorem splitFields_getlineTokens (cs : List Char) :
    ∀ cur : List Char, splitFields cur cs = getlineTokens cur cs
      ∨ splitFields cur cs = getlineTokens cur cs ++ [[]] := by
  induction cs with
  | nil =>
    intro cur
    cases cur with
    | nil => right; rfl
    | cons a t => left; rfl
  | cons c cs ih =>
    intro cur
    unfold splitFields getlineTokens
    by_cases hc : c = ','
    · simp only [hc, if_true]
      rcases ih [] with h | h
      · left; rw [h]
      · right; rw [h]; rfl
    · simp only [hc, if_false]
      exact ih (c :: cur)

/-- The same relation on strings. -/
theorem fields_tokenize (line : String) :
    fields line = tokenize line ∨ fields line = tokenize line ++ [""] := by
  unfold fields tokenize
  rcases splitFields_getlineTokens line.data [] with h | h
  · left; rw [h]
  · right; rw [h, List.map_append]; rfl

/-- One pass of the loading loop appends exactly the sample of the line, to both
vectors at once. -/
theorem loadStep_eq {α : Type} (stod : String → Option α) (s : Matrix α × List Int)
    (line : String) :
    loadStep stod s line
      = match lineSample stod line with
        | none => s
        | some (row, label) => (s.1 ++ [row], s.2 ++ [label]) := by
  unfold loadStep lineSample
  by_cases he : line.isEmpty
  · simp only [he, if_true]
  · simp only [he, Bool.false_eq_true, if_false]
    rcases fields_tokenize line with hf | hf
    · rw [hf]
      by_cases h6 : (tokenize line).length < 6
      · simp only [h6, if_true]
      · simp only [h6, if_false]
        by_cases hv : (tokenize line).getD 5 "" = "Iris-versicolor"
        · simp only [hv, true_or, if_true]
          cases stod ((tokenize line).getD 3 "") <;>
            cases stod ((tokenize line).getD 4 "") <;> rfl
        · by_cases hg : (tokenize line).getD 5 "" = "Iris-virginica"
          · have hne : ¬ ("Iris-virginica" = "Iris-versicolor") := by decide
            simp only [hg, hne, or_true, if_true, if_false]
            cases stod ((tokenize line).getD 3 "") <;>
              cases stod ((tokenize line).getD 4 "") <;> rfl
          · simp only [hv, hg, or_self, if_false]
    · rw [hf]
      by_cases h6 : (tokenize line).length < 6
      · simp only [h6, if_true]
        by_cases h5 : (tokenize line).length < 5
        · have : ((tokenize line) ++ [""]).length < 6 := by
            rw [List.length_append]; simp; omega
          simp only [this, if_true]
        · have hl : (tokenize line).length = 5 := by omega
          have h6' : ¬ ((tokenize line) ++ [""]).length < 6 := by
            rw [List.length_append]; simp; omega
          have hsp : ((tokenize line) ++ [""]).getD 5 "" = "" := by
            rw [List.getD_append_right _ _ _ _ (by omega), hl]; rfl
          have n1 : ¬ ("" = "Iris-versicolor") := by decide
          have n2 : ¬ ("" = "Iris-virginica") := by decide
          simp only [h6', hsp, n1, n2, if_false]
      · have h6' : ¬ ((tokenize line) ++ [""]).length < 6 := by
          rw [List.length_append]; simp; omega
        have g3 : ((tokenize line) ++ [""]).getD 3 "" = (tokenize line).getD 3 "" :=
          List.getD_append _ _ _ _ (by omega)
        have g4 : ((tokenize line) ++ [""]).getD 4 "" = (tokenize line).getD 4 "" :=
          List.getD_append _ _ _ _ (by omega)
        have g5 : ((tokenize line) ++ [""]).getD 5 "" = (tokenize line).getD 5 "" :=
          List.getD_append _ _ _ _ (by omega)
        simp only [h6, h6', g3, g4, g5, if_false]
        by_cases hv : (tokenize line).getD 5 "" = "Iris-versicolor"
        · simp only [hv, true_or, if_true]
          cases stod ((tokenize line).getD 3 "") <;>
            cases stod ((tokenize line).getD 4 "") <;> rfl
        · by_cases hg : (tokenize line).getD 5 "" = "Iris-virginica"
          · have hne : ¬ ("Iris-virginica" = "Iris-versicolor") := by decide
            simp only [hg, hne, or_true, if_true, if_false]
            cases stod ((tokenize line).getD 3 "") <;>
              cases stod ((tokenize line).getD 4 "") <;> rfl
          · simp only [hv, hg, or_self, if_false]

/-- The loading loop appends, to both vectors, the samples of the lines in order. -/
theorem loadLoop_fold {α : Type} (stod : String → Option α) (lines : List String) :
    ∀ s : Matrix α × List Int,
      lines.foldl (loadStep stod) s
        = (s.1 ++ (lines.filterMap (lineSample stod)).map Prod.fst,
           s.2 ++ (lines.filterMap (lineSample stod)).map Prod.snd) := by
  induction lines with
  | nil => intro s; simp
  | cons line rest ih =>
    intro s
    rw [List.foldl_cons, ih, loadStep_eq]
    cases h : lineSample stod line with
    | none => simp [List.filterMap_cons, h]
    | some p => simp [List.filterMap_cons, h]

/-- A line contributes nothing exactly when it is empty, has fewer than 6 fields,
names another species, or has a petal field that does not parse. -/
theorem lineSample_eq_none_iff {α : Type} (stod : String → Option α) (line : String) :
    lineSample stod line = none
      ↔ (line.isEmpty = true ∨ (fields line).length < 6
          ∨ ((fields line).getD 5 "" ≠ "Iris-versicolor"
              ∧ (fields line).getD 5 "" ≠ "Iris-virginica")
          ∨ stod ((fields line).getD 3 "") = none
          ∨ stod ((fields line).getD 4 "") = none) := by
  unfold lineSample
  have hne : ¬ ("Iris-virginica" = "Iris-versicolor") := by decide
  generalize (fields line).getD 5 "" = sp
  generalize stod ((fields line).getD 3 "") = o3
  generalize stod ((fields line).getD 4 "") = o4
  by_cases he : line.isEmpty
  · simp [he]
  · by_cases h6 : (fields line).length < 6
    · simp [he, h6]
    · by_cases hv : sp = "Iris-versicolor"
      · subst hv
        cases o3 <;> cases o4 <;> simp [he, h6]
      · by_cases hg : sp = "Iris-virginica"
        · subst hg
          cases o3 <;> cases o4 <;> simp [he, h6, hne]
        · simp [he, h6, hv, hg]

/-- A contributed sample is the parsed petal pair of its line, labelled by the
species of that line. -/
theorem lineSample_eq_some {α : Type} (stod : String → Option α) (line : String)
    (row : List α) (label : Int) (h : lineSample stod line = some (row, label)) :
    (∃ pl pw, stod ((fields line).getD 3 "") = some pl
        ∧ stod ((fields line).getD 4 "") = some pw ∧ row = [pl, pw])
    ∧ (label = 0 ↔ (fields line).getD 5 "" = "Iris-versicolor")
    ∧ (label = 1 ↔ (fields line).getD 5 "" = "Iris-virginica") := by
  unfold lineSample at h
  have hne : ¬ ("Iris-virginica" = "Iris-versicolor") := by decide
  have hne' : ¬ ("Iris-versicolor" = "Iris-virginica") := by decide
  generalize (fields line).getD 5 "" = sp at h ⊢
  generalize stod ((fields line).getD 3 "") = o3 at h ⊢
  generalize stod ((fields line).getD 4 "") = o4 at h ⊢
  by_cases he : line.isEmpty
  · simp [he] at h
  · by_cases h6 : (fields line).length < 6
    · simp [he, h6] at h
    · by_cases hv : sp = "Iris-versicolor"
      · subst hv
        cases o3 <;> cases o4 <;> simp [he, h6] at h
        obtain ⟨hr, hl⟩ := h
        subst hr; subst hl
        simp [hne']
      · by_cases hg : sp = "Iris-virginica"
        · subst hg
          cases o3 <;> cases o4 <;> simp [he, h6, hne] at h
          obtain ⟨hr, hl⟩ := h
          subst hr; subst hl
          simp [hne]
        · simp [he, h6, hv, hg] at h

/-- C6. After the loading loop, for every sequence of lines: `y` has as many
entries as `X` has rows, every label is `0` or `1`, every row has 2 columns, and
the pairs (row `i`, label `i`) are exactly the samples of the contributing lines,
in order; a sample is the parsed petal pair with label `0` iff the species is
`Iris-versicolor` and `1` iff `Iris-virginica`, and a line that is empty, has
fewer than 6 fields, names another species or fails to parse contributes nothing. -/
theorem loadLoop_invariant {α : Type} (stod : String → Option α) (lines : List String) :
    (loadLoop stod lines).2.length = (loadLoop stod lines).1.length
    ∧ (∀ l ∈ (loadLoop stod lines).2, l = 0 ∨ l = 1)
    ∧ (∀ row ∈ (loadLoop stod lines).1, row.length = 2)
    ∧ (loadLoop stod lines).1.zip (loadLoop stod lines).2
        = lines.filterMap (lineSample stod)
    ∧ (∀ line, lineSample stod line = none
        ↔ (line.isEmpty = true ∨ (fields line).length < 6
            ∨ ((fields line).getD 5 "" ≠ "Iris-versicolor"
                ∧ (fields line).getD 5 "" ≠ "Iris-virginica")
            ∨ stod ((fields line).getD 3 "") = none
            ∨ stod ((fields line).getD 4 "") = none))
    ∧ (∀ line row label, lineSample stod line = some (row, label) →
        (∃ pl pw, stod ((fields line).getD 3 "") = some pl
          ∧ stod ((fields line).getD 4 "") = some pw ∧ row = [pl, pw])
        ∧ (label = 0 ↔ (fields line).getD 5 "" = "Iris-versicolor")
        ∧ (label = 1 ↔ (fields line).getD 5 "" = "Iris-virginica")) := by
  have hfold : loadLoop stod lines
      = ((lines.filterMap (lineSample stod)).map Prod.fst,
         (lines.filterMap (lineSample stod)).map Prod.snd) := by
    unfold loadLoop
    rw [loadLoop_fold]
    simp
  rw [hfold]
  refine ⟨by simp, ?_, ?_, ?_, lineSample_eq_none_iff stod, lineSample_eq_some stod⟩
  · intro l hl
    obtain ⟨⟨row, l'⟩, hmem, rfl⟩ := List.mem_map.mp hl
    obtain ⟨line, _, hs⟩ := List.mem_filterMap.mp hmem
    have h := (lineSample_eq_some stod line row l' hs).2
    by_cases hv : (fields line).getD 5 "" = "Iris-versicolor"
    · left; exact h.1.mpr hv
    · right
      apply h.2.mpr
      have hnone := lineSample_eq_none_iff stod line
      by_contra hg
      have : lineSample stod line = none := hnone.mpr (Or.inr (Or.inr (Or.inl ⟨hv, hg⟩)))
      rw [hs] at this
      exact Option.noConfusion this
  · intro row hr
    obtain ⟨⟨row', l'⟩, hmem, rfl⟩ := List.mem_map.mp hr
    obtain ⟨line, _, hs⟩ := List.mem_filterMap.mp hmem
    obtain ⟨⟨pl, pw, _, _, hrow⟩, _⟩ := lineSample_eq_some stod line row' l' hs
    simp [hrow]
  · rw [← List.unzip_eq_map]
    exact List.zip_unzip _

/-! ### Decision-boundary grid -/

/-- An index loop that only reads `l[i]` is a fold over `l`. -/
theorem foldl_range_getD {β γ : Type} (l : List β) (d : β) (f : γ → β → γ) (g0 : γ) :
    (List.range l.length).foldl (fun g i => f g (l.getD i d)) g0 = l.foldl f g0 := by
  have h := map_range_getD l d (fun x => x)
  simp only [List.map_id_fun', id_eq] at h
  conv_rhs => rw [← h]
  rw [List.foldl_map]

/-- Running minimum from a start value `m0`: below `m0`, below every scanned value,
and equal to `m0` or to a scanned value. -/
theorem runMin_spec {α : Type} [LinearOrder α] (l : List α) :
    ∀ m0 : α,
      l.foldl (fun m v => if v < m then v else m) m0 ≤ m0
      ∧ (∀ v ∈ l, l.foldl (fun m v => if v < m then v else m) m0 ≤ v)
      ∧ (l.foldl (fun m v => if v < m then v else m) m0 = m0
          ∨ l.foldl (fun m v => if v < m then v else m) m0 ∈ l) := by
  induction l with
  | nil => intro m0; simp
  | cons a t ih =>
    intro m0
    rw [List.foldl_cons]
    obtain ⟨h1, h2, h3⟩ := ih (if a < m0 then a else m0)
    have hle : (if a < m0 then a else m0) ≤ m0 := by
      split
      · exact le_of_lt ‹a < m0›
      · exact le_refl _
    have hla : (if a < m0 then a else m0) ≤ a := by
      split
      · exact le_refl _
      · exact not_lt.mp ‹¬ a < m0›
    refine ⟨le_trans h1 hle, ?_, ?_⟩
    · intro v hv
      rcases List.mem_cons.mp hv with rfl | hv
      · exact le_trans h1 hla
      · exact h2 v hv
    · rcases h3 with h3 | h3
      · rw [h3]
        by_cases ham : a < m0
        · right; simp [ham]
        · left; simp [ham]
      · right; exact List.mem_cons_of_mem _ h3

/-- Running maximum from a start value `m0`. -/
theorem runMax_spec {α : Type} [LinearOrder α] (l : List α) :
    ∀ m0 : α,
      m0 ≤ l.foldl (fun m v => if v > m then v else m) m0
      ∧ (∀ v ∈ l, v ≤ l.foldl (fun m v => if v > m then v else m) m0)
      ∧ (l.foldl (fun m v => if v > m then v else m) m0 = m0
          ∨ l.foldl (fun m v => if v > m then v else m) m0 ∈ l) := by
  induction l with
  | nil => intro m0; simp
  | cons a t ih =>
    intro m0
    rw [List.foldl_cons]
    obtain ⟨h1, h2, h3⟩ := ih (if a > m0 then a else m0)
    have hle : m0 ≤ (if a > m0 then a else m0) := by
      split
      · exact le_of_lt ‹a > m0›
      · exact le_refl _
    have hla : a ≤ (if a > m0 then a else m0) := by
      split
      · exact le_refl _
      · exact not_lt.mp ‹¬ a > m0›
    refine ⟨le_trans hle h1, ?_, ?_⟩
    · intro v hv
      rcases List.mem_cons.mp hv with rfl | hv
      · exact le_trans hla h1
      · exact h2 v hv
    · rcases h3 with h3 | h3
      · rw [h3]
        by_cases ham : a > m0
        · right; simp [ham]
        · left; simp [ham]
      · right; exact List.mem_cons_of_mem _ h3

/-- The bounds loop computes four independent running extrema of the two columns. -/
theorem foldl_updateBounds {α : Type} [LinearOrderedField α] (rows : Matrix α) :
    ∀ b : Bounds α,
      rows.foldl updateBounds b
        = { minPL := (column rows 0).foldl (fun m v => if v < m then v else m) b.minPL
            maxPL := (column rows 0).foldl (fun m v => if v > m then v else m) b.maxPL
            minPW := (column rows 1).foldl (fun m v => if v < m then v else m) b.minPW
            maxPW := (column rows 1).foldl (fun m v => if v > m then v else m) b.maxPW } := by
  induction rows with
  | nil => intro b; rfl
  | cons r t ih =>
    intro b
    rw [List.foldl_cons, ih]
    rfl

/-- The bounds loop as running extrema from the sentinels `1e9` and `-1e9`. -/
theorem scanBounds_eq {α : Type} [LinearOrderedField α] (X_train : Matrix α) :
    scanBounds X_train
      = { minPL := (column X_train 0).foldl (fun m v => if v < m then v else m) 1000000000
          maxPL := (column X_train 0).foldl (fun m v => if v > m then v else m) (-1000000000)
          minPW := (column X_train 1).foldl (fun m v => if v < m then v else m) 1000000000
          maxPW := (column X_train 1).foldl (fun m v => if v > m then v else m) (-1000000000) } := by
  unfold scanBounds
  have h := foldl_range_getD X_train [] (@updateBounds α _)
    { minPL := 1000000000, maxPL := -1000000000, minPW := 1000000000, maxPW := -1000000000 }
  have h' : bounds_body X_train = fun g i => updateBounds g (X_train.getD i []) := rfl
  rw [h', h, foldl_updateBounds]

/-- Started from a sentinel that some scanned value does not exceed, the running
minimum is the minimum of the list. -/
theorem runMin_isMinOf {α : Type} [LinearOrder α] (l : List α) (s : α)
    (h : ∃ v ∈ l, v ≤ s) :
    IsMinOf l (l.foldl (fun m v => if v < m then v else m) s) := by
  obtain ⟨h1, h2, h3⟩ := runMin_spec l s
  refine ⟨?_, h2⟩
  rcases h3 with h3 | h3
  · obtain ⟨v, hv, hvs⟩ := h
    have hsv := h2 v hv
    rw [h3] at hsv ⊢
    have : v = s := le_antisymm hvs hsv
    exact this ▸ hv
  · exact h3

/-- Started from a sentinel that some scanned value reaches, the running maximum
is the maximum of the list. -/
theorem runMax_isMaxOf {α : Type} [LinearOrder α] (l : List α) (s : α)
    (h : ∃ v ∈ l, s ≤ v) :
    IsMaxOf l (l.foldl (fun m v => if v > m then v else m) s) := by
  obtain ⟨h1, h2, h3⟩ := runMax_spec l s
  refine ⟨?_, h2⟩
  rcases h3 with h3 | h3
  · obtain ⟨v, hv, hvs⟩ := h
    have hsv := h2 v hv
    rw [h3] at hsv ⊢
    have : v = s := le_antisymm hsv hvs
    exact this ▸ hv
  · exact h3

/-- The inner grid loop appends one point per `j`. -/
theorem inner_grid_fold {β : Type} (f : Nat → β) (n : Nat) (g0 : List β) :
    (List.range n).foldl (fun g j => g ++ [f j]) g0 = g0 ++ (List.range n).map f := by
  induction n with
  | zero => simp
  | succ k ih =>
    rw [List.range_succ, List.foldl_append, ih]
    simp

/-- The nested grid loops produce `m * n` points, the point of loop indices
`(i, j)` sitting at index `n * i + j`. -/
theorem nested_grid_fold {β : Type} (d : β) (f : Nat → Nat → β) (n m : Nat) :
    ((List.range m).foldl
        (fun g i => (List.range n).foldl (fun g j => g ++ [f i j]) g) []).length = m * n
    ∧ ∀ i j, i < m → j < n →
        ((List.range m).foldl
          (fun g i => (List.range n).foldl (fun g j => g ++ [f i j]) g) []).getD (n * i + j) d
          = f i j := by
  induction m with
  | zero => simp
  | succ k ih =>
    obtain ⟨ihl, ihg⟩ := ih
    rw [List.range_succ, List.foldl_append]
    simp only [List.foldl_cons, List.foldl_nil]
    rw [inner_grid_fold]
    constructor
    · rw [List.length_append, ihl, List.length_map, List.length_range]
      ring
    · intro i j hi hj
      rcases Nat.lt_succ_iff_lt_or_eq.mp hi with hik | hik
      · have hlt : n * i + j < k * n := by
          calc n * i + j < n * i + n := by omega
            _ = (i + 1) * n := by ring
            _ ≤ k * n := Nat.mul_le_mul_right n hik
        rw [List.getD_append _ _ _ _ (by rw [ihl]; exact hlt)]
        exact ihg i j hik hj
      · subst hik
        rw [List.getD_append_right _ _ _ _ (by rw [ihl, Nat.mul_comm]; omega), ihl]
        have e : n * i + j - i * n = j := by rw [Nat.mul_comm]; omega
        rw [e, List.getD_eq_getElem _ _ (by simpa using hj)]
        simp

/-- A rounded value differs from every fraction whose denominator is a multiple
of 3 and whose numerator is not. -/
theorem roundDouble_ne_div (q : ℚ) (a b : Int) (hb : b ≠ 0) (h3 : (3 : Int) ∣ b)
    (ha : ¬ (3 : Int) ∣ a) : roundDouble q ≠ (a : ℚ) / b := by
  obtain ⟨N, j, h⟩ := roundDouble_dyadic q
  rw [h]
  exact fun hc => not_dyadic_of_three a b hb h3 ha N j hc.symm

/-- C7 as stated fails in two ways. On the one-row training set
`[[2000000000, 1]]` the minimum of the petal lengths is `2000000000`, above the
sentinel `1e9`, and `minPL` is neither `2000000000 - 0.5` nor its nearest `double`.
On `[[4, 1], [5, 2]]` the grid point at index `100 * 1 + 0` is a pair of `double`
values, not `(3.5 + 1 * (5.5 - 3.5) / 99, 0.5 + 0 * (2.5 - 0.5) / 99)`. -/
theorem gridBounds_counterexample :
    (IsMinOf (column [[(2000000000 : ℚ), 1]] 0) 2000000000
      ∧ (gridBounds [[2000000000, 1]]).minPL ≠ 2000000000 - 1 / 2
      ∧ (gridBounds [[2000000000, 1]]).minPL ≠ roundDouble (2000000000 - 1 / 2))
    ∧ (gridPoints (gridBounds [[4, 1], [5, 2]])).getD (100 * 1 + 0) []
        ≠ [(4 - 1 / 2) + 1 * ((5 + 1 / 2) - (4 - 1 / 2)) / 99,
           (1 - 1 / 2) + 0 * ((2 + 1 / 2) - (1 - 1 / 2)) / 99] := by
  have hmin : (gridBounds [[(2000000000 : ℚ), 1]]).minPL = roundDouble (1000000000 - 1 / 2) := by
    simp only [gridBounds, scanBounds_eq, column, List.map_cons, List.map_nil,
      List.getD_cons_zero, List.foldl_cons, List.foldl_nil]
    norm_num
  have hup := (roundDouble_bounds (1000000000 - 1 / 2) (by norm_num)).2
  have hlow := (roundDouble_bounds (2000000000 - 1 / 2) (by norm_num)).1
  refine ⟨⟨?_, ?_, ?_⟩, ?_⟩
  · constructor
    · simp [column]
    · intro v hv
      simp [column] at hv
      rw [hv]
  · rw [hmin]
    intro hc
    rw [hc] at hup
    norm_num at hup
  · rw [hmin]
    intro hc
    rw [hc] at hup
    have : (1 - 1 / 2 ^ 51) * (2000000000 - 1 / 2 : ℚ)
        ≤ (1 + 1 / 2 ^ 51) * (1000000000 - 1 / 2) := le_trans hlow hup
    norm_num at this
  · have hg := (nested_grid_fold ([] : List ℚ)
      (gridPoint (gridBounds [[4, 1], [5, 2]])) 100 100).2 1 0 (by norm_num) (by norm_num)
    have e : gridPoints (gridBounds [[4, 1], [5, 2]])
        = (List.range 100).foldl
            (fun g i => (List.range 100).foldl
              (fun g j => g ++ [gridPoint (gridBounds [[4, 1], [5, 2]]) i j]) g) [] := rfl
    rw [e, hg]
    unfold gridPoint
    intro hc
    have hhead := (List.cons.inj hc).1
    have hval : ((4 : ℚ) - 1 / 2) + 1 * ((5 + 1 / 2) - (4 - 1 / 2)) / 99
        = ((697 : Int) : ℚ) / ((198 : Int) : ℚ) := by norm_num
    rw [hval] at hhead
    exact roundDouble_ne_div _ 697 198 (by decide) (by decide) (by decide) hhead

/-- C7 (amended). For a non-empty training set of two-column rows whose petal
lengths and widths all lie in `[-1e9, 1e9]`, the grid bounds are the `double`
results of (column minimum) `- 0.5` and (column maximum) `+ 0.5`, each within one
part in `2 ^ 51` of the exact value, and the grid has `100 * 100 = 10000` points,
the point at index `100 * i + j` being `(minPL + i * stepPL, minPW + j * stepPW)`
with `stepPL = (maxPL - minPL) / 99` and `stepPW = (maxPW - minPW) / 99`, every
operation rounded to the nearest `double`. -/
theorem gridBounds_and_points (X_train : Matrix ℚ)
    (_hcols : ∀ row ∈ X_train, row.length = 2) (hne : X_train ≠ [])
    (hPL : ∀ v ∈ column X_train 0, -1000000000 ≤ v ∧ v ≤ 1000000000)
    (hPW : ∀ v ∈ column X_train 1, -1000000000 ≤ v ∧ v ≤ 1000000000) :
    ∃ loPL hiPL loPW hiPW : ℚ,
      IsMinOf (column X_train 0) loPL ∧ IsMaxOf (column X_train 0) hiPL
      ∧ IsMinOf (column X_train 1) loPW ∧ IsMaxOf (column X_train 1) hiPW
      ∧ (gridBounds X_train).minPL = roundDouble (loPL - 1 / 2)
      ∧ (gridBounds X_train).maxPL = roundDouble (hiPL + 1 / 2)
      ∧ (gridBounds X_train).minPW = roundDouble (loPW - 1 / 2)
      ∧ (gridBounds X_train).maxPW = roundDouble (hiPW + 1 / 2)
      ∧ |(gridBounds X_train).minPL - (loPL - 1 / 2)| ≤ |loPL - 1 / 2| / 2 ^ 51
      ∧ |(gridBounds X_train).maxPL - (hiPL + 1 / 2)| ≤ |hiPL + 1 / 2| / 2 ^ 51
      ∧ |(gridBounds X_train).minPW - (loPW - 1 / 2)| ≤ |loPW - 1 / 2| / 2 ^ 51
      ∧ |(gridBounds X_train).maxPW - (hiPW + 1 / 2)| ≤ |hiPW + 1 / 2| / 2 ^ 51
      ∧ (gridPoints (gridBounds X_train)).length = 100 * 100
      ∧ ∀ i j, i < 100 → j < 100 →
          (gridPoints (gridBounds X_train)).getD (100 * i + j) []
            = [roundDouble ((gridBounds X_train).minPL
                  + roundDouble ((i : ℚ)
                      * roundDouble (roundDouble
                          ((gridBounds X_train).maxPL - (gridBounds X_train).minPL) / 99))),
               roundDouble ((gridBounds X_train).minPW
                  + roundDouble ((j : ℚ)
                      * roundDouble (roundDouble
                          ((gridBounds X_train).maxPW - (gridBounds X_train).minPW) / 99)))] := by
  have hex : ∀ c, ∃ v, v ∈ column X_train c := by
    intro c
    cases X_train with
    | nil => exact absurd rfl hne
    | cons r t => exact ⟨r.getD c 0, by simp [column]⟩
  obtain ⟨v0, hv0⟩ := hex 0
  obtain ⟨v1, hv1⟩ := hex 1
  have m0 := runMin_isMinOf (column X_train 0) 1000000000 ⟨v0, hv0, (hPL v0 hv0).2⟩
  have M0 := runMax_isMaxOf (column X_train 0) (-1000000000) ⟨v0, hv0, (hPL v0 hv0).1⟩
  have m1 := runMin_isMinOf (column X_train 1) 1000000000 ⟨v1, hv1, (hPW v1 hv1).2⟩
  have M1 := runMax_isMaxOf (column X_train 1) (-1000000000) ⟨v1, hv1, (hPW v1 hv1).1⟩
  have hg := nested_grid_fold ([] : List ℚ) (gridPoint (gridBounds X_train)) 100 100
  have hb : gridBounds X_train
      = { minPL := roundDouble
            ((column X_train 0).foldl (fun m v => if v < m then v else m) 1000000000 - 1 / 2)
          maxPL := roundDouble
            ((column X_train 0).foldl (fun m v => if v > m then v else m) (-1000000000) + 1 / 2)
          minPW := roundDouble
            ((column X_train 1).foldl (fun m v => if v < m then v else m) 1000000000 - 1 / 2)
          maxPW := roundDouble
            ((column X_train 1).foldl (fun m v => if v > m then v else m) (-1000000000)
              + 1 / 2) } := by
    unfold gridBounds
    rw [scanBounds_eq]
  refine ⟨_, _, _, _, m0, M0, m1, M1, ?_, ?_, ?_, ?_, ?_, ?_, ?_, ?_, hg.1, ?_⟩
  · rw [hb]
  · rw [hb]
  · rw [hb]
  · rw [hb]
  · rw [hb]; exact roundDouble_error _
  · rw [hb]; exact roundDouble_error _
  · rw [hb]; exact roundDouble_error _
  · rw [hb]; exact roundDouble_error _
  · intro i j hi hj
    have h := hg.2 i j hi hj
    have e : gridPoints (gridBounds X_train)
        = (List.range 100).foldl
            (fun g i => (List.range 100).foldl
              (fun g j => g ++ [gridPoint (gridBounds X_train) i j]) g) [] := rfl
    rw [e, h]
    simp only [gridPoint, stepPL, stepPW, gridSteps]
    norm_num

/-- Witness for C7 (amended) on the training set `[[4, 1], [5, 2]]`. -/
theorem gridBounds_and_points_witness :
    (gridPoints (gridBounds [[4, 1], [5, 2]])).length = 100 * 100 := by
  obtain ⟨_, _, _, _, _, _, _, _, _, _, _, _, _, _, _, _, hlen, _⟩ :=
    gridBounds_and_points [[4, 1], [5, 2]] (by decide) (by decide)
      (fun v hv => by
        simp [column] at hv
        rcases hv with rfl | rfl <;> norm_num)
      (fun v hv => by
        simp [column] at hv
        rcases hv with rfl | rfl <;> norm_num)
  exact hlen

set_option maxRecDepth 100000 in
/-- The rounding at work on the training set `[[-1e18, 1], [5, 2]]`, whose first
petal length lies outside the range of C7 (amended): `minPL = -1e18` absorbs the
margin, and the last point of the first grid column is `(128, 0.5)`, not
`(5.5, 0.5)`. -/
theorem gridPoints_absorption_example :
    (gridBounds [[-1000000000000000000, 1], [5, 2]]).minPL = -1000000000000000000
    ∧ (gridBounds [[-1000000000000000000, 1], [5, 2]]).maxPL = 11 / 2
    ∧ (gridPoints (gridBounds [[-1000000000000000000, 1], [5, 2]])).getD (100 * 99 + 0) []
        = [128, 1 / 2] := by
  have e1 : roundDouble (-(2000000000000000001 / 2)) = -1000000000000000000 := by
    rw [roundDouble_neg, roundDouble_examples.2.2.1]
  have e2 : roundDouble (11 / 2) = 11 / 2 := by
    rw [roundDouble_eval (11 / 2) 11 2 2 792633534417207296 (by norm_num) (by norm_num)
      (by norm_num) (by decide) (by decide)]
    norm_num
  have e3 : roundDouble (1 / 2) = 1 / 2 := by
    rw [roundDouble_eval (1 / 2) 1 2 2 72057594037927936 (by norm_num) (by norm_num)
      (by norm_num) (by decide) (by decide)]
    norm_num
  have e4 : roundDouble (5 / 2) = 5 / 2 := by
    rw [roundDouble_eval (5 / 2) 5 2 2 360287970189639680 (by norm_num) (by norm_num)
      (by norm_num) (by decide) (by decide)]
    norm_num
  have hb : gridBounds [[-1000000000000000000, 1], [5, 2]]
      = { minPL := -1000000000000000000, maxPL := 11 / 2, minPW := 1 / 2, maxPW := 5 / 2 } := by
    unfold gridBounds
    rw [scanBounds_eq]
    simp only [column, List.map_cons, List.map_nil, List.getD_cons_zero, List.getD_cons_succ,
      List.foldl_cons, List.foldl_nil]
    norm_num
    exact ⟨e1, e2, e3, e4⟩
  have hg := (nested_grid_fold ([] : List ℚ)
    (gridPoint (gridBounds [[-1000000000000000000, 1], [5, 2]])) 100 100).2 99 0
    (by norm_num) (by norm_num)
  have e : gridPoints (gridBounds [[-1000000000000000000, 1], [5, 2]])
      = (List.range 100).foldl
          (fun g i => (List.range 100).foldl
            (fun g j => g ++ [gridPoint (gridBounds [[-1000000000000000000, 1], [5, 2]]) i j])
            g) [] := rfl
  rw [e, hg, hb]
  refine ⟨rfl, rfl, ?_⟩
  simp only [gridPoint, stepPL, stepPW, gridSteps]
  norm_num
  obtain ⟨_, _, _, x1, x2, x3⟩ := roundDouble_examples
  have e5 : (99 : ℚ) * 10101010101010102 = 1000000000000000098 := by norm_num
  have e6 : (-1000000000000000000 : ℚ) + 1000000000000000128 = ((128 : Nat) : ℚ) := by
    norm_num
  have e7 : (1 / 2 : ℚ) + 0 = 1 / 2 := by norm_num
  rw [x1, x2, e5, x3, e6, roundDouble_natCast 128 (by norm_num), roundDouble_zero, e7, e3]
  norm_num

/-! ### Feature expander -/

/-- The only monomial of total degree `0` has all exponents `0`. -/
theorem monomialsOfDegree_zero (k : Nat) :
    monomialsOfDegree k 0 = [List.replicate k 0] := by
  induction k with
  | zero => rfl
  | succ k ih =>
    unfold monomialsOfDegree
    have hrange : (List.range (0 + 1)).reverse = [0] := by decide
    rw [hrange]
    simp [ih, List.replicate_succ]

/-- The enumeration lists exactly the exponent vectors over `k` columns of total
degree `t`. -/
theorem mem_monomialsOfDegree (k : Nat) :
    ∀ (t : Nat) (es : List Nat),
      es ∈ monomialsOfDegree k t ↔ es.length = k ∧ es.sum = t := by
  induction k with
  | zero =>
    intro t es
    unfold monomialsOfDegree
    by_cases ht : t = 0
    · subst ht
      simp only [if_true, List.mem_singleton, List.length_eq_zero]
      constructor
      · rintro rfl; exact ⟨rfl, rfl⟩
      · exact fun h => h.1
    · simp only [ht, if_false, List.not_mem_nil, false_iff, List.length_eq_zero]
      rintro ⟨rfl, hs⟩
      exact ht hs.symm
  | succ k ih =>
    intro t es
    unfold monomialsOfDegree
    simp only [List.mem_flatMap, List.mem_reverse, List.mem_range, List.mem_map, ih]
    constructor
    · rintro ⟨e, he, es', ⟨hl, hs⟩, rfl⟩
      refine ⟨by simp [hl], ?_⟩
      rw [List.sum_cons, hs]
      omega
    · rintro ⟨hl, hs⟩
      cases es with
      | nil => simp at hl
      | cons e es' =>
        rw [List.sum_cons] at hs
        refine ⟨e, by omega, es', ⟨by simpa using hl, by omega⟩, rfl⟩

/-- The monomial with all exponents `0` evaluates to `1`. -/
theorem evalMonomial_zeros {α : Type} [LinearOrderedField α] (row : List α) :
    evalMonomial row (List.replicate row.length 0) = 1 := by
  induction row with
  | nil => simp [evalMonomial]
  | cons x xs ih =>
    unfold evalMonomial at ih ⊢
    simp [List.replicate_succ, ih]

/-- Evaluating a monomial whose first exponent is `0` skips the first entry. -/
theorem evalMonomial_cons_zero {α : Type} [LinearOrderedField α] (x : α) (xs : List α)
    (es : List Nat) : evalMonomial (x :: xs) (0 :: es) = evalMonomial xs es := by
  simp [evalMonomial]

/-- The monomials of total degree `1` evaluate to the row itself, in column order. -/
theorem monomialsOfDegree_one_eval {α : Type} [LinearOrderedField α] (row : List α) :
    (monomialsOfDegree row.length 1).map (evalMonomial row) = row := by
  induction row with
  | nil => rfl
  | cons x xs ih =>
    have h1 : evalMonomial (x :: xs) (1 :: List.replicate xs.length 0) = x := by
      have := evalMonomial_zeros xs
      unfold evalMonomial at this ⊢
      simp [this]
    have hrange : (List.range (1 + 1)).reverse = [1, 0] := by decide
    simp only [List.length_cons]
    unfold monomialsOfDegree
    rw [hrange]
    simp only [List.flatMap_cons, List.flatMap_nil, List.append_nil, Nat.sub_self,
      Nat.sub_zero, monomialsOfDegree_zero, List.map_cons, List.map_nil, List.map_append,
      List.map_map]
    rw [h1]
    have hcomp : (evalMonomial (x :: xs) ∘ fun es => 0 :: es) = evalMonomial xs := by
      funext es
      exact evalMonomial_cons_zero x xs es
    rw [hcomp, ih]
    rfl

/-- The degree-1 expansion of a row is the bias `1` followed by the row. -/
theorem expandRow_one {α : Type} [LinearOrderedField α] (row : List α) :
    expandRow 1 row = 1 :: row := by
  unfold expandRow
  have hrange : List.range (1 + 1) = [0, 1] := by decide
  rw [hrange]
  simp only [List.flatMap_cons, List.flatMap_nil, List.append_nil, monomialsOfDegree_zero,
    List.map_cons, List.map_nil, evalMonomial_zeros, monomialsOfDegree_one_eval]
  rfl

/-- The raggedness check passes on rows of a common length. -/
theorem all_length_eq {α : Type} (rows : Matrix α) (k : Nat)
    (h : ∀ row ∈ rows, row.length = k) :
    rows.all (fun row => row.length == k) = true := by
  rw [List.all_eq_true]
  intro row hrow
  simp [h row hrow]

/-- C3. For a non-empty `X` whose rows all have length `k`, `genPolyFeatures(X, 1)`
succeeds with as many rows as `X`; every row has `k + 1` columns, column 0 is `1`,
and columns `1..k` are the columns of `X`, unchanged and in order. -/
theorem genPolyFeatures_degree_one {α : Type} [LinearOrderedField α] (X : Matrix α)
    (k : Nat) (hne : X ≠ []) (hk : ∀ row ∈ X, row.length = k) :
    ∃ Phi, genPolyFeatures X 1 = Except.ok Phi
      ∧ Phi.length = X.length
      ∧ ∀ i < X.length,
          (Phi.getD i []).length = k + 1
          ∧ (Phi.getD i []).getD 0 0 = 1
          ∧ ∀ c < k, (Phi.getD i []).getD (c + 1) 0 = (X.getD i []).getD c 0 := by
  cases X with
  | nil => exact absurd rfl hne
  | cons first rest =>
    have hfirst : first.length = k := hk first (List.mem_cons_self _ _)
    have hall : rest.all (fun row => row.length == first.length) = true :=
      all_length_eq rest first.length
        (fun row hrow => (hk row (List.mem_cons_of_mem _ hrow)).trans hfirst.symm)
    refine ⟨(first :: rest).map (expandRow 1), ?_, by simp, ?_⟩
    · unfold genPolyFeatures
      simp only [hall, if_true]
    · intro i hi
      have hi' : i < ((first :: rest).map (@expandRow α _ 1)).length := by simpa using hi
      rw [List.getD_eq_getElem _ _ hi', List.getElem_map, expandRow_one,
        List.getD_eq_getElem _ _ hi]
      refine ⟨?_, rfl, fun c _ => rfl⟩
      rw [List.length_cons, hk _ (List.getElem_mem hi)]

/-- Witness for C3 on `X = [[2, 3], [5, 7]]`. -/
theorem genPolyFeatures_degree_one_witness :
    ∃ Phi, genPolyFeatures [[(2 : ℚ), 3], [5, 7]] 1 = Except.ok Phi
      ∧ Phi.length = [[(2 : ℚ), 3], [5, 7]].length
      ∧ ∀ i < [[(2 : ℚ), 3], [5, 7]].length,
          (Phi.getD i []).length = 2 + 1
          ∧ (Phi.getD i []).getD 0 0 = 1
          ∧ ∀ c < 2, (Phi.getD i []).getD (c + 1) 0
              = ([[(2 : ℚ), 3], [5, 7]].getD i []).getD c 0 :=
  genPolyFeatures_degree_one [[(2 : ℚ), 3], [5, 7]] 2 (by decide) (by decide)

/-! ### Logistic-regression model -/

/-- C2. For a `Ready` model and a design matrix whose rows match the weight
vector, `predict` and `predictProb` both succeed with one entry per row, and on
every row `predict` is `1` iff the probability is at least `1/2`, and `0` otherwise. -/
theorem predict_iff_predictProb {α : Type} [LinearOrderedField α] (sigmoid : α → α)
    (m : LogisticRegression α) (Phi : Matrix α) (hready : m.state = TrainState.Ready)
    (hcols : ∀ row ∈ Phi, row.length = m.weights.length) :
    ∃ preds probs,
      LogisticRegression.predict sigmoid m Phi = Except.ok preds
      ∧ LogisticRegression.predictProb sigmoid m Phi = Except.ok probs
      ∧ preds.length = Phi.length ∧ probs.length = Phi.length
      ∧ ∀ i < Phi.length,
          (preds.getD i 0 = 1 ↔ probs.getD i 0 ≥ 1 / 2)
          ∧ (¬ probs.getD i 0 ≥ 1 / 2 → preds.getD i 0 = 0) := by
  have hall := all_length_eq Phi m.weights.length hcols
  refine ⟨Phi.map (fun row => if sigmoid (dot row m.weights) ≥ 1 / 2 then 1 else 0),
    Phi.map (fun row => sigmoid (dot row m.weights)), ?_, ?_, by simp, by simp, ?_⟩
  · unfold LogisticRegression.predict
    simp only [hready, ne_eq, not_true_eq_false, if_false, hall, if_true]
  · unfold LogisticRegression.predictProb
    simp only [hready, ne_eq, not_true_eq_false, if_false, hall, if_true]
  · intro i hi
    have h1 : i < (Phi.map
        (fun row => if sigmoid (dot row m.weights) ≥ 1 / 2 then (1 : Int) else 0)).length := by
      simpa using hi
    have h2 : i < (Phi.map (fun row => sigmoid (dot row m.weights))).length := by
      simpa using hi
    rw [List.getD_eq_getElem _ _ h1, List.getD_eq_getElem _ _ h2, List.getElem_map,
      List.getElem_map]
    by_cases hp : sigmoid (dot Phi[i] m.weights) ≥ 1 / 2
    · simp [hp]
    · simp [hp]

/-- Witness for C2: a `Ready` model with weights `[0, 1]` on the rows `[1, 2]` and
`[1, -3]`. -/
theorem predict_iff_predictProb_witness :
    ∃ preds probs,
      LogisticRegression.predict rationalSigmoid
          { learningRate := 1 / 100, maxIterations := 10000, tolerance := 0,
            weights := [0, 1], state := TrainState.Ready,
            terminal := TrainState.MaxIterReached } [[1, 2], [1, -3]] = Except.ok preds
      ∧ LogisticRegression.predictProb rationalSigmoid
          { learningRate := 1 / 100, maxIterations := 10000, tolerance := 0,
            weights := [0, 1], state := TrainState.Ready,
            terminal := TrainState.MaxIterReached } [[1, 2], [1, -3]] = Except.ok probs
      ∧ preds.length = [[(1 : ℚ), 2], [1, -3]].length
      ∧ probs.length = [[(1 : ℚ), 2], [1, -3]].length
      ∧ ∀ i < [[(1 : ℚ), 2], [1, -3]].length,
          (preds.getD i 0 = 1 ↔ probs.getD i 0 ≥ 1 / 2)
          ∧ (¬ probs.getD i 0 ≥ 1 / 2 → preds.getD i 0 = 0) :=
  predict_iff_predictProb rationalSigmoid
    { learningRate := 1 / 100, maxIterations := 10000, tolerance := 0,
      weights := [0, 1], state := TrainState.Ready,
      terminal := TrainState.MaxIterReached } [[1, 2], [1, -3]] rfl (by decide)

/-- The score of any row against all-zero weights is `0`. -/
theorem dot_zeros {α : Type} [LinearOrderedField α] (row : List α) :
    ∀ k : Nat, dot row (List.replicate k 0) = 0 := by
  induction row with
  | nil => intro k; simp [dot]
  | cons x xs ih =>
    intro k
    cases k with
    | zero => simp [dot]
    | succ k =>
      have := ih k
      unfold dot at this ⊢
      simp [List.replicate_succ, this]

/-- Updating all-zero weights by a gradient of the same length negates the step. -/
theorem zipWith_zeros_step {α : Type} [LinearOrderedField α] (lr : α) (g : List α)
    (n : Nat) (hn : g.length = n) :
    List.zipWith (fun wj gj => wj - lr * gj) (List.replicate n 0) g
      = g.map (fun gj => -(lr * gj)) := by
  subst hn
  induction g with
  | nil => rfl
  | cons a t ih =>
    simp only [List.length_cons, List.replicate_succ, List.zipWith_cons_cons, List.map_cons,
      ih, zero_sub]

/-- The gradient has one entry per weight. -/
theorem gradient_length {α : Type} [LinearOrderedField α] (sigmoid : α → α)
    (Phi : Matrix α) (y : List Int) (w : List α) :
    (gradient sigmoid Phi y w).length = w.length := by
  simp [gradient]

/-- At all-zero weights every probability is `sigmoid 0`, so with `sigmoid 0 = 1/2`
the gradient is `(1/n) Φᵗ(1/2 − y)`. -/
theorem gradient_zeros {α : Type} [LinearOrderedField α] (sigmoid : α → α)
    (hs : sigmoid 0 = 1 / 2) (Phi : Matrix α) (y : List Int) (c : Nat) :
    gradient sigmoid Phi y (List.replicate c 0)
      = (List.range c).map (fun j =>
          1 / (Phi.length : α)
            * ((List.range Phi.length).map
                (fun i => (Phi.getD i []).getD j 0
                  * (1 / 2 - ((y.getD i 0 : Int) : α)))).sum) := by
  unfold gradient
  simp only [List.length_replicate]
  apply List.map_congr_left
  intro j _
  congr 2
  apply List.map_congr_left
  intro i hi
  have hi' : i < Phi.length := List.mem_range.mp hi
  have h2 : i < (Phi.map (fun row => sigmoid (dot row (List.replicate c 0)))).length := by
    simpa using hi'
  rw [List.getD_eq_getElem _ _ h2, List.getElem_map, dot_zeros, hs]

/-- One budgeted iteration from `w` leaves `w − learningRate · g(w)`, whichever
terminal state is reached. -/
theorem gradientDescent_one {α : Type} [LinearOrderedField α] (sigmoid : α → α)
    (stopMetric : List α → List α → α) (lr tol : α) (Phi : Matrix α) (y : List Int)
    (w : List α) :
    (gradientDescent sigmoid stopMetric lr tol Phi y 1 w).1
      = List.zipWith (fun wj gj => wj - lr * gj) w (gradient sigmoid Phi y w) := by
  unfold gradientDescent
  simp only
  split
  · rfl
  · unfold gradientDescent
    rfl

/-- A successful `fit` leaves the model `Ready`. -/
theorem fit_ready {α : Type} [LinearOrderedField α] (sigmoid : α → α)
    (stopMetric : List α → List α → α) (m m' : LogisticRegression α) (Phi : Matrix α)
    (y : List Int) (h : LogisticRegression.fit sigmoid stopMetric m Phi y = Except.ok m') :
    m'.state = TrainState.Ready := by
  unfold LogisticRegression.fit at h
  cases Phi with
  | nil => simp at h
  | cons first rest =>
    simp only at h
    split at h
    · injection h with h
      rw [← h]
    · simp at h

/-- C4. With `maxIterations = 1` and `tolerance = 0`, for a non-empty rectangular
`Φ` with `n` rows, labels in `{0,1}` and a learning rate `> 0`: construction and
`fit` succeed, and the fitted weights are `−learningRate · g0`, where `g0` is the
gradient at the all-zero weight vector, which is `(1/n) Φᵗ(1/2 − y)` since
`sigmoid 0 = 1/2`. -/
theorem fit_single_step {α : Type} [LinearOrderedField α] (sigmoid : α → α)
    (stopMetric : List α → List α → α) (hs : sigmoid 0 = 1 / 2)
    (learningRate : α) (hlr : 0 < learningRate) (Phi : Matrix α) (y : List Int)
    (hne : Phi ≠ []) (hrect : ∀ row ∈ Phi, row.length = (Phi.headD []).length)
    (hlen : Phi.length = y.length) (_hy : ∀ l ∈ y, l = 0 ∨ l = 1) :
    ∃ m0 m,
      LogisticRegression.construct learningRate 1 0 = Except.ok m0
      ∧ LogisticRegression.fit sigmoid stopMetric m0 Phi y = Except.ok m
      ∧ m.state = TrainState.Ready
      ∧ m.weights
          = (gradient sigmoid Phi y (List.replicate (Phi.headD []).length 0)).map
              (fun g => -(learningRate * g))
      ∧ gradient sigmoid Phi y (List.replicate (Phi.headD []).length 0)
          = (List.range (Phi.headD []).length).map (fun j =>
              1 / (Phi.length : α)
                * ((List.range Phi.length).map
                    (fun i => (Phi.getD i []).getD j 0
                      * (1 / 2 - ((y.getD i 0 : Int) : α)))).sum) := by
  cases Phi with
  | nil => exact absurd rfl hne
  | cons first rest =>
    have hall : rest.all (fun row => row.length == first.length) = true :=
      all_length_eq rest first.length
        (fun row hrow => hrect row (List.mem_cons_of_mem _ hrow))
    refine ⟨{ learningRate := learningRate, maxIterations := 1, tolerance := 0,
              weights := [], state := TrainState.Uninitialized,
              terminal := TrainState.Uninitialized }, ?_⟩
    refine ⟨{ learningRate := learningRate, maxIterations := 1, tolerance := 0,
              weights := (gradientDescent sigmoid stopMetric learningRate 0 (first :: rest) y
                1 (List.replicate first.length 0)).1,
              state := TrainState.Ready,
              terminal := (gradientDescent sigmoid stopMetric learningRate 0 (first :: rest) y
                1 (List.replicate first.length 0)).2 },
      ?_, ?_, rfl, ?_, gradient_zeros sigmoid hs (first :: rest) y first.length⟩
    · unfold LogisticRegression.construct
      simp [hlr]
    · unfold LogisticRegression.fit
      simp only [hlen, hall, and_self, if_true]
      rfl
    · simp only [List.headD_cons]
      rw [gradientDescent_one]
      have hg := gradient_length sigmoid (first :: rest) y (List.replicate first.length 0)
      rw [List.length_replicate] at hg
      exact zipWith_zeros_step learningRate _ _ hg

/-- Witness for C4: one step from zero weights on `Φ = [[1, 2], [1, 4]]`,
`y = [0, 1]` with learning rate `1/10`. -/
theorem fit_single_step_witness :
    ∃ m0 m,
      LogisticRegression.construct (1 / 10 : ℚ) 1 0 = Except.ok m0
      ∧ LogisticRegression.fit rationalSigmoid
          (fun w w' => (List.zipWith (fun a b => |a - b|) w w').sum) m0
          [[1, 2], [1, 4]] [0, 1] = Except.ok m
      ∧ m.state = TrainState.Ready
      ∧ m.weights
          = (gradient rationalSigmoid [[1, 2], [1, 4]] [0, 1]
              (List.replicate ([[(1 : ℚ), 2], [1, 4]].headD []).length 0)).map
              (fun g => -(1 / 10 * g))
      ∧ gradient rationalSigmoid [[1, 2], [1, 4]] [0, 1]
            (List.replicate ([[(1 : ℚ), 2], [1, 4]].headD []).length 0)
          = (List.range ([[(1 : ℚ), 2], [1, 4]].headD []).length).map (fun j =>
              1 / (([[(1 : ℚ), 2], [1, 4]].length : Nat) : ℚ)
                * ((List.range [[(1 : ℚ), 2], [1, 4]].length).map
                    (fun i => ([[(1 : ℚ), 2], [1, 4]].getD i []).getD j 0
                      * (1 / 2 - ((([0, 1] : List Int).getD i 0 : Int) : ℚ)))).sum) :=
  fit_single_step rationalSigmoid
    (fun w w' => (List.zipWith (fun a b => |a - b|) w w').sum)
    (by norm_num [rationalSigmoid]) (1 / 10) (by norm_num)
    [[1, 2], [1, 4]] [0, 1] (by decide) (by decide) (by decide) (by decide)

/-! ### What the harness hands to the core -/

/-- The shuffled matrix has one row per index. -/
theorem X_shuffled_length {α : Type} [Zero α] (X : Matrix α) (y : List Int)
    (indices : List Nat) : (X_shuffled X y indices).length = indices.length := by
  rw [X_shuffled_eq, List.length_map]

/-- From two loaded rows on, neither part of the split is empty, and the test part
is non-empty as soon as one row is loaded. -/
theorem split_nonempty {α : Type} [Zero α] (X : Matrix α) (y : List Int)
    (indices : List Nat) :
    (2 ≤ indices.length → X_train X y indices ≠ [])
    ∧ (1 ≤ indices.length → X_test X y indices ≠ []) := by
  constructor
  · intro h2 hnil
    have hl : (X_train X y indices).length = 0 := by rw [hnil]; rfl
    unfold X_train at hl
    rw [List.length_take, X_shuffled_length] at hl
    have := train_size_pos indices.length h2
    have := train_size_le indices.length
    omega
  · intro h1 hnil
    have hl : (X_test X y indices).length = 0 := by rw [hnil]; rfl
    unfold X_test at hl
    rw [List.length_drop, X_shuffled_length] at hl
    have := train_size_lt indices.length h1
    omega

/-- C8 at its failing input: a file whose only data line is a valid
`Iris-versicolor` row loads one row, which passes the `X.empty()` check; the split
index is `static_cast<size_t>(1 * 0.7) = 0`, so `X_train` is empty and the expander
and `fit` are handed an empty matrix, which they reject with `InvalidInput`. -/
theorem single_row_dataset_empty_training :
    loadLoop (fun s => if s = "4.7" then some (47 / 10 : ℚ)
                else if s = "1.4" then some (7 / 5) else none)
        ["1,7.0,3.2,4.7,1.4,Iris-versicolor"]
      = ([[47 / 10, 7 / 5]], [0])
    ∧ ([[47 / 10, 7 / 5]] : Matrix ℚ).isEmpty = false
    ∧ train_size 1 = 0
    ∧ X_train [[(47 / 10 : ℚ), 7 / 5]] [0] [0] = []
    ∧ X_test [[(47 / 10 : ℚ), 7 / 5]] [0] [0] = [[47 / 10, 7 / 5]]
    ∧ genPolyFeatures (X_train [[(47 / 10 : ℚ), 7 / 5]] [0] [0]) 1
        = Except.error CoreError.InvalidInput := by
  have hts : train_size 1 = 0 := by decide
  have hsh : X_shuffled [[(47 / 10 : ℚ), 7 / 5]] [0] [0] = [[47 / 10, 7 / 5]] := rfl
  have htr : X_train [[(47 / 10 : ℚ), 7 / 5]] [0] [0] = [] := by
    unfold X_train
    rw [hsh]
    simp [hts]
  refine ⟨?_, rfl, hts, htr, ?_, ?_⟩
  · rfl
  · unfold X_test
    rw [hsh]
    simp [hts]
  · rw [htr]
    rfl

end IrisHarness
